import Mathlib

/-!
# Verification of the boolify compiler core

A shallow embedding of the boolify repository (Rust) in Lean 4, together with
theorems settling the frozen claims about its behaviour.

Embedding conventions:
* The shared mutable id counter (`Rc<RefCell<IdGenerator>>`) is threaded
  explicitly: every operation that may call `gen()` takes the current counter
  state (a `Nat`) and returns the updated state.
* `Rc<BoolWire>` sharing becomes plain structural sharing of trees; pointer
  equality checks in the source are modelled as structural equality.
* Rust panics and non-exhaustive matches are modelled with `Option`, `none`
  standing for an aborted computation.
* Machine integers (`usize`) are modelled as `Nat`; `usize::BITS` is 64 and
  `usize::MAX` is `2 ^ 64 - 1`.
-/

/-- CircuitInput from src/src/circuit_input.rs as used by value_wire.rs and
generate_bristol.rs: the record `{name, id_start, size}` attached to every
bit of a named multi-bit input. -/
structure CircuitInput where
  name : String
  id_start : Nat
  size : Nat
deriving DecidableEq, Repr

/-- BoolData from src/src/bool_wire.rs: the DAG node. The Rust `BoolWire`
struct wraps a `BoolData` plus the shared id generator; the generator is
threaded explicitly here, so the node type is just `BoolData`. -/
inductive BoolData where
  | const : Bool → BoolData
  | input : Nat → CircuitInput → BoolData
  | and : Nat → BoolData → BoolData → BoolData
  | inv : Nat → BoolData → BoolData
  | xor : Nat → BoolData → BoolData → BoolData
deriving DecidableEq, Repr

/-- IdGenerator from src/src/id_generator.rs: a `next_id` counter. -/
abbrev IdGenerator := Nat

/-- `IdGenerator::gen`: return the current counter and increment it. -/
def IdGenerator.gen (g : IdGenerator) : Nat × IdGenerator := (g, g + 1)

/-- `IdGenerator::peek`: return the current counter without incrementing. -/
def IdGenerator.peek (g : IdGenerator) : Nat := g

/-- `BoolWire::id`: constants have no id; every other node carries one. -/
def BoolWire.id : BoolData → Option Nat
  | .const _ => none
  | .input i _ => some i
  | .and i _ _ => some i
  | .inv i _ => some i
  | .xor i _ _ => some i

/-- `BoolWire::and` smart constructor (src/src/bool_wire.rs): constant folding
on either operand, otherwise a fresh `And` node. -/
def BoolWire.and (a b : BoolData) (g : IdGenerator) : BoolData × IdGenerator :=
  match a with
  | .const false => (a, g)
  | .const true => (b, g)
  | _ =>
    match b with
    | .const false => (b, g)
    | .const true => (a, g)
    | _ =>
      let (id, g) := IdGenerator.gen g
      (.and id a b, g)

/-- `BoolWire::inv_with_new_id`: always allocate a fresh `Inv` node. -/
def BoolWire.inv_with_new_id (a : BoolData) (g : IdGenerator) : BoolData × IdGenerator :=
  let (id, g) := IdGenerator.gen g
  (.inv id a, g)

/-- `BoolWire::inv` smart constructor: fold constants, cancel double
negation, otherwise a fresh `Inv` node. -/
def BoolWire.inv (a : BoolData) (g : IdGenerator) : BoolData × IdGenerator :=
  match a with
  | .const b => (.const (!b), g)
  | .inv _ x => (x, g)
  | _ => BoolWire.inv_with_new_id a g

/-- `BoolWire::or` smart constructor: constant short-circuits, otherwise
`Inv(id, And(Inv a, Inv b))` where — exactly as in the source — the outer
id is generated *before* the inner `Inv`/`And` nodes. -/
def BoolWire.or (a b : BoolData) (g : IdGenerator) : BoolData × IdGenerator :=
  match a with
  | .const true => (a, g)
  | .const false => (b, g)
  | _ =>
    match b with
    | .const true => (b, g)
    | .const false => (a, g)
    | _ =>
      let (id, g) := IdGenerator.gen g
      let (ia, g) := BoolWire.inv a g
      let (ib, g) := BoolWire.inv b g
      let (c, g) := BoolWire.and ia ib g
      (.inv id c, g)

/-- `BoolWire::xor` smart constructor: constant folding (`true` operand
becomes an inversion of the other side), otherwise a fresh `Xor` node. -/
def BoolWire.xor (a b : BoolData) (g : IdGenerator) : BoolData × IdGenerator :=
  match a with
  | .const true => BoolWire.inv b g
  | .const false => (b, g)
  | _ =>
    match b with
    | .const true => BoolWire.inv a g
    | .const false => (a, g)
    | _ =>
      let (id, g) := IdGenerator.gen g
      (.xor id a b, g)

/-- `BoolWire::copy_with_new_id`: duplicate a wire under a fresh id via
double inversion; a single inversion suffices when the argument is an `Inv`. -/
def BoolWire.copy_with_new_id (a : BoolData) (g : IdGenerator) : BoolData × IdGenerator :=
  match a with
  | .inv _ inv_a => BoolWire.inv_with_new_id inv_a g
  | _ =>
    let (x, g) := BoolWire.inv_with_new_id a g
    BoolWire.inv_with_new_id x g

/-- Denotation of a wire under an assignment of the input-bit ids to booleans.
Ids of internal nodes are irrelevant to the value. -/
def BoolWire.evalW (env : Nat → Bool) : BoolData → Bool
  | .const b => b
  | .input i _ => env i
  | .and _ a b => BoolWire.evalW env a && BoolWire.evalW env b
  | .inv _ a => !(BoolWire.evalW env a)
  | .xor _ a b => Bool.xor (BoolWire.evalW env a) (BoolWire.evalW env b)

/-- ValueWire from src/src/value_wire.rs: a little-endian list of wire bits
(bit 0 least significant). The `id_gen` field is threaded explicitly. -/
structure ValueWire where
  bits : List BoolData
deriving DecidableEq, Repr

/-- Value of a little-endian list of booleans: `Σ bits[i] * 2^i`. -/
def natOfBits : List Bool → Nat
  | [] => 0
  | b :: rest => b.toNat + 2 * natOfBits rest

/-- Evaluated numeric value of a `ValueWire` under an input assignment. -/
def ValueWire.val (v : ValueWire) (env : Nat → Bool) : Nat :=
  natOfBits (v.bits.map (BoolWire.evalW env))

/-- `ValueWire::new_input`: record `id_start = peek()`, then create `size`
`Input` bits with consecutive ids (bit `i` carries id `id_start + i`; the
source does not reverse the bit vector). -/
def ValueWire.new_input (name : String) (size : Nat) (g : IdGenerator) :
    ValueWire × IdGenerator :=
  let ci : CircuitInput := ⟨name, IdGenerator.peek g, size⟩
  (⟨(List.range size).map (fun i => .input (g + i) ci)⟩, g + size)

/-- Bits of a nonnegative constant, least significant first, stopping at the
highest set bit (the loop `while value > 0`). -/
def constBits (v : Nat) : List BoolData :=
  if h : 0 < v then .const (v % 2 == 1) :: constBits (v / 2) else []
termination_by v
decreasing_by exact Nat.div_lt_self h (by decide)

/-- `ValueWire::new_const`: minimum-width constant value (no ids allocated). -/
def ValueWire.new_const (value : Nat) : ValueWire := ⟨constBits value⟩

/-- `ValueWire::as_usize`: `None` when the width exceeds `usize::BITS` (64)
or any bit is not a constant; otherwise the combined constant value. -/
def constListVal : List BoolData → Option Nat
  | [] => some 0
  | .const b :: rest => (constListVal rest).map (fun n => b.toNat + 2 * n)
  | _ :: _ => none

/-- `ValueWire::as_usize` (src/src/value_wire.rs lines 79–95). -/
def ValueWire.as_usize (v : ValueWire) : Option Nat :=
  if 64 < v.bits.length then none else constListVal v.bits

/-- `ValueWire::at`: bit `i`, or `Const(false)` when out of range. (`at` is a
reserved word in Lean, hence the underscore.) -/
def ValueWire.at_ (v : ValueWire) (index : Nat) : BoolData :=
  if h : index < v.bits.length then v.bits.get ⟨index, h⟩ else .const false

/-- Loop body of `ValueWire::add` for `i ∈ [1, size)`: full adder with the
exact gate construction order of the source. The loop `for i in 1..size` is
rendered with `k = size - i` remaining iterations so the recursion is
structural. -/
def ValueWire.addLoop (a b : ValueWire) (k i : Nat) (bits : List BoolData)
    (carry : BoolData) (g : IdGenerator) : List BoolData × IdGenerator :=
  match k with
  | 0 => (bits, g)
  | k + 1 =>
    let a_bit := a.at_ i
    let b_bit := b.at_ i
    let (sum, g) := BoolWire.xor a_bit b_bit g
    let (ab, g) := BoolWire.and a_bit b_bit g
    let (cs, g) := BoolWire.and carry sum g
    let (new_carry, g) := BoolWire.xor ab cs g
    let (out, g) := BoolWire.xor sum carry g
    ValueWire.addLoop a b k (i + 1) (bits ++ [out]) new_carry g

/-- `ValueWire::add`: ripple-carry adder of width `max(|a|,|b|)`; the bit-0
half adder is emitted unconditionally, the final carry is discarded. -/
def ValueWire.add (a b : ValueWire) (g : IdGenerator) : ValueWire × IdGenerator :=
  let size := max a.bits.length b.bits.length
  let a_bit := a.at_ 0
  let b_bit := b.at_ 0
  let (s0, g) := BoolWire.xor a_bit b_bit g
  let (c0, g) := BoolWire.and a_bit b_bit g
  let (bits, g) := ValueWire.addLoop a b (size - 1) 1 [s0] c0 g
  (⟨bits⟩, g)

/-- Elementwise `BoolWire::inv` over a bit list (body of `ValueWire::bit_not`). -/
def ValueWire.invBits : List BoolData → IdGenerator → List BoolData × IdGenerator
  | [], g => ([], g)
  | b :: rest, g =>
    let (x, g) := BoolWire.inv b g
    let (xs, g) := ValueWire.invBits rest g
    (x :: xs, g)

/-- `ValueWire::bit_not`: elementwise inversion. -/
def ValueWire.bit_not (a : ValueWire) (g : IdGenerator) : ValueWire × IdGenerator :=
  let (bs, g) := ValueWire.invBits a.bits g
  (⟨bs⟩, g)

/-- `ValueWire::negate`: two's complement, `bit_not(self) + 1`. -/
def ValueWire.negate (v : ValueWire) (g : IdGenerator) : ValueWire × IdGenerator :=
  let (nb, g) := ValueWire.bit_not v g
  ValueWire.add nb (ValueWire.new_const 1) g

/-- `ValueWire::resize`: identity at the same size, otherwise re-index through
`at` (pad with `Const(false)` / truncate). -/
def ValueWire.resize (v : ValueWire) (size : Nat) : ValueWire :=
  if size = v.bits.length then v
  else ⟨(List.range size).map (fun i => v.at_ i)⟩

/-- `ValueWire::sub`: add the two's-complement negation, widening `b` first
when it is narrower than `a`. -/
def ValueWire.sub (a b : ValueWire) (g : IdGenerator) : ValueWire × IdGenerator :=
  let (neg_b, g) :=
    if b.bits.length < a.bits.length then
      ValueWire.negate (b.resize a.bits.length) g
    else
      ValueWire.negate b g
  ValueWire.add a neg_b g

/-- `ValueWire::shift_up_const`: prepend `amount` zero bits, keep the first
`|v| − amount` original bits; all-zero when `amount ≥ |v|`. -/
def ValueWire.shift_up_const (v : ValueWire) (amount : Nat) : ValueWire :=
  if v.bits.length ≤ amount then ValueWire.new_const 0
  else ⟨List.replicate amount (.const false) ++ v.bits.take (v.bits.length - amount)⟩

/-- `ValueWire::shift_down_const`: drop `amount` low bits, append `amount`
zero high bits; all-zero when `amount ≥ |v|`. -/
def ValueWire.shift_down_const (v : ValueWire) (amount : Nat) : ValueWire :=
  if v.bits.length ≤ amount then ValueWire.new_const 0
  else ⟨v.bits.drop amount ++ List.replicate amount (.const false)⟩

/-- Elementwise `and` against a scalar bit (body of `ValueWire::mul_bool`). -/
def ValueWire.andBits (a : BoolData) : List BoolData → IdGenerator →
    List BoolData × IdGenerator
  | [], g => ([], g)
  | b :: rest, g =>
    let (x, g) := BoolWire.and a b g
    let (xs, g) := ValueWire.andBits a rest g
    (x :: xs, g)

/-- `ValueWire::mul_bool`: scalar-bit times vector. -/
def ValueWire.mul_bool (a : BoolData) (b : ValueWire) (g : IdGenerator) :
    ValueWire × IdGenerator :=
  let (bs, g) := ValueWire.andBits a b.bits g
  (⟨bs⟩, g)

/-- `ValueWire::split_at`: low/high split; the high part of a short value is
`new_const 0` (the empty value). -/
def ValueWire.split_at (v : ValueWire) (split_point : Nat) : ValueWire × ValueWire :=
  if v.bits.length ≤ split_point then (v, ValueWire.new_const 0)
  else (⟨v.bits.take split_point⟩, ⟨v.bits.drop split_point⟩)

theorem ValueWire.split_at_fst_length (v : ValueWire) (p : Nat) :
    ((v.split_at p).fst).bits.length = min v.bits.length p := by
  unfold ValueWire.split_at
  split <;> simp <;> omega

theorem ValueWire.split_at_snd_length (v : ValueWire) (p : Nat) :
    ((v.split_at p).snd).bits.length = v.bits.length - p := by
  unfold ValueWire.split_at
  split
  · simp [ValueWire.new_const]
    rw [constBits]
    simp
    omega
  · simp

/-- `ValueWire::cmp`: divide-and-conquer `(eq, lt)` comparator
(src/src/value_wire.rs lines 301–334). -/
def ValueWire.cmp (a b : ValueWire) (g : IdGenerator) :
    (BoolData × BoolData) × IdGenerator :=
  let size := max a.bits.length b.bits.length
  if size = 0 then ((.const false, .const false), g)
  else if size = 1 then
    let (x, g) := BoolWire.xor (a.at_ 0) (b.at_ 0) g
    let (e, g) := BoolWire.inv x g
    let (na, g) := BoolWire.inv (a.at_ 0) g
    let (l, g) := BoolWire.and na (b.at_ 0) g
    ((e, l), g)
  else
    let ((eq0, lt0), g) := ValueWire.cmp (a.split_at (size / 2)).fst (b.split_at (size / 2)).fst g
    let ((eq1, lt1), g) := ValueWire.cmp (a.split_at (size / 2)).snd (b.split_at (size / 2)).snd g
    let (e, g) := BoolWire.and eq0 eq1 g
    let (el, g) := BoolWire.and eq1 lt0 g
    let (l, g) := BoolWire.xor lt1 el g
    ((e, l), g)
termination_by max a.bits.length b.bits.length
decreasing_by
  all_goals simp only [ValueWire.split_at_fst_length, ValueWire.split_at_snd_length]
  all_goals omega

/-- `ValueWire::less_than`: the `lt` component of `cmp`. -/
def ValueWire.less_than (a b : ValueWire) (g : IdGenerator) : BoolData × IdGenerator :=
  let ((_e, lt), g) := ValueWire.cmp a b g
  (lt, g)

/-- `ValueWire::greater_than`: `less_than` with the arguments swapped. -/
def ValueWire.greater_than (a b : ValueWire) (g : IdGenerator) : BoolData × IdGenerator :=
  ValueWire.less_than b a g

/-- `ValueWire::less_than_or_eq`: `inv(greater_than(a, b))`. -/
def ValueWire.less_than_or_eq (a b : ValueWire) (g : IdGenerator) : BoolData × IdGenerator :=
  let (gt, g) := ValueWire.greater_than a b g
  BoolWire.inv gt g

/-- `ValueWire::greater_than_or_eq`: `inv(less_than(a, b))`. -/
def ValueWire.greater_than_or_eq (a b : ValueWire) (g : IdGenerator) : BoolData × IdGenerator :=
  let (lt, g) := ValueWire.less_than a b g
  BoolWire.inv lt g

/-- `ValueWire::equal`: divide-and-conquer equality; the size-0 base case is
`Const(true)` (src/src/value_wire.rs lines 354–375). -/
def ValueWire.equal (a b : ValueWire) (g : IdGenerator) : BoolData × IdGenerator :=
  let size := max a.bits.length b.bits.length
  if size = 0 then (.const true, g)
  else if size = 1 then
    let (x, g) := BoolWire.xor (a.at_ 0) (b.at_ 0) g
    BoolWire.inv x g
  else
    let (eq0, g) := ValueWire.equal (a.split_at (size / 2)).fst (b.split_at (size / 2)).fst g
    let (eq1, g) := ValueWire.equal (a.split_at (size / 2)).snd (b.split_at (size / 2)).snd g
    BoolWire.and eq0 eq1 g
termination_by max a.bits.length b.bits.length
decreasing_by
  all_goals simp only [ValueWire.split_at_fst_length, ValueWire.split_at_snd_length]
  all_goals omega

/-- Index loop of `ValueWire::bit_xor`: bit `i` is `xor(a.at(i), b.at(i))`,
with `k` iterations remaining (structural rendering of `for i in 0..size`). -/
def ValueWire.bitXorLoop (a b : ValueWire) (k i : Nat) (g : IdGenerator) :
    List BoolData × IdGenerator :=
  match k with
  | 0 => ([], g)
  | k + 1 =>
    let (x, g) := BoolWire.xor (a.at_ i) (b.at_ i) g
    let (xs, g) := ValueWire.bitXorLoop a b k (i + 1) g
    (x :: xs, g)

/-- `ValueWire::bit_xor`: elementwise xor at width `max(|a|,|b|)`. -/
def ValueWire.bit_xor (a b : ValueWire) (g : IdGenerator) : ValueWire × IdGenerator :=
  let size := max a.bits.length b.bits.length
  let (bs, g) := ValueWire.bitXorLoop a b size 0 g
  (⟨bs⟩, g)

/-- `ValueWire::bit_shl`: requires a fully-constant shift amount via
`as_usize`; the panic on a non-constant amount is modelled as `none`. -/
def ValueWire.bit_shl (a b : ValueWire) : Option ValueWire :=
  (ValueWire.as_usize b).map (fun n => a.shift_up_const n)

/-- `ValueWire::bit_shr`: constant-amount right shift, `none` on failure. -/
def ValueWire.bit_shr (a b : ValueWire) : Option ValueWire :=
  (ValueWire.as_usize b).map (fun n => a.shift_down_const n)

/-- `shifts_valid` loop of `ValueWire::quotient_remainder`: for `i ∈ [1, size)`
push `and(shifts_valid[i-1], inv(b.at(size - i)))`, with `k` iterations
remaining (structural rendering of `for i in 1..size`). -/
def ValueWire.svLoop (b : ValueWire) (size k i : Nat) (sv : List BoolData)
    (g : IdGenerator) : List BoolData × IdGenerator :=
  match k with
  | 0 => (sv, g)
  | k + 1 =>
    let (nb, g) := BoolWire.inv (b.at_ (size - i)) g
    let (x, g) := BoolWire.and (sv.getD (i - 1) (.const false)) nb g
    ValueWire.svLoop b size k (i + 1) (sv ++ [x]) g

/-- Main loop of `ValueWire::quotient_remainder`, iterating the bit index from
`size − 1` down to `0`; the counter `n` is the number of indices still to
process (next index `n − 1`). -/
def ValueWire.qrLoop (b : ValueWire) (sv : List BoolData) (n : Nat)
    (quotient rem : ValueWire) (g : IdGenerator) :
    (ValueWire × ValueWire) × IdGenerator :=
  match n with
  | 0 => ((quotient, rem), g)
  | i + 1 =>
    let valid := sv.getD i (.const false)
    let shift_b := b.shift_up_const i
    let (less, g) := ValueWire.less_than_or_eq shift_b rem g
    let (apply, g) := BoolWire.and valid less g
    let (apply_rem, g) := ValueWire.sub rem shift_b g
    let quotient : ValueWire := ⟨quotient.bits.set i apply⟩
    let (m1, g) := ValueWire.mul_bool apply apply_rem g
    let (napply, g) := BoolWire.inv apply g
    let (m2, g) := ValueWire.mul_bool napply rem g
    let (rem, g) := ValueWire.bit_xor m1 m2 g
    ValueWire.qrLoop b sv i quotient rem g

/-- `ValueWire::quotient_remainder` (src/src/value_wire.rs lines 461–499):
restoring long division at width `max(|a|,|b|)`. -/
def ValueWire.quotient_remainder (a b : ValueWire) (g : IdGenerator) :
    (ValueWire × ValueWire) × IdGenerator :=
  let size := max a.bits.length b.bits.length
  let a := a.resize size
  let b := b.resize size
  let (shifts_valid, g) := ValueWire.svLoop b size (size - 1) 1 [.const true] g
  let quotient := (ValueWire.new_const 0).resize size
  let rem := a
  ValueWire.qrLoop b shifts_valid size quotient rem g

/-- `ValueWire::div`: the quotient component. -/
def ValueWire.div (a b : ValueWire) (g : IdGenerator) : ValueWire × IdGenerator :=
  let ((q, _r), g) := ValueWire.quotient_remainder a b g
  (q, g)

/-- `ValueWire::mod_`: the remainder component. -/
def ValueWire.mod_ (a b : ValueWire) (g : IdGenerator) : ValueWire × IdGenerator :=
  let ((_q, r), g) := ValueWire.quotient_remainder a b g
  (r, g)

/-! ### Evaluation lemmas for the smart constructors -/

theorem BoolWire.evalW_and (env : Nat → Bool) (a b : BoolData) (g : IdGenerator) :
    BoolWire.evalW env (BoolWire.and a b g).fst
      = (BoolWire.evalW env a && BoolWire.evalW env b) := by
  rcases a with ⟨_|_⟩ | ⟨i, ci⟩ | ⟨i, x, y⟩ | ⟨i, x⟩ | ⟨i, x, y⟩ <;>
    rcases b with ⟨_|_⟩ | ⟨j, cj⟩ | ⟨j, u, v⟩ | ⟨j, u⟩ | ⟨j, u, v⟩ <;>
    simp [BoolWire.and, BoolWire.evalW, IdGenerator.gen]

theorem BoolWire.evalW_inv (env : Nat → Bool) (a : BoolData) (g : IdGenerator) :
    BoolWire.evalW env (BoolWire.inv a g).fst = !(BoolWire.evalW env a) := by
  rcases a with ⟨_|_⟩ | ⟨i, ci⟩ | ⟨i, x, y⟩ | ⟨i, x⟩ | ⟨i, x, y⟩ <;>
    simp [BoolWire.inv, BoolWire.inv_with_new_id, BoolWire.evalW, IdGenerator.gen]

theorem BoolWire.evalW_xor (env : Nat → Bool) (a b : BoolData) (g : IdGenerator) :
    BoolWire.evalW env (BoolWire.xor a b g).fst
      = Bool.xor (BoolWire.evalW env a) (BoolWire.evalW env b) := by
  rcases a with ⟨_|_⟩ | ⟨i, ci⟩ | ⟨i, x, y⟩ | ⟨i, x⟩ | ⟨i, x, y⟩ <;>
    rcases b with ⟨_|_⟩ | ⟨j, cj⟩ | ⟨j, u, v⟩ | ⟨j, u⟩ | ⟨j, u, v⟩ <;>
    simp [BoolWire.xor, BoolWire.evalW, BoolWire.evalW_inv, BoolWire.inv,
      BoolWire.inv_with_new_id, IdGenerator.gen]

theorem BoolWire.evalW_or (env : Nat → Bool) (a b : BoolData) (g : IdGenerator) :
    BoolWire.evalW env (BoolWire.or a b g).fst
      = (BoolWire.evalW env a || BoolWire.evalW env b) := by
  rcases a with ⟨_|_⟩ | ⟨i, ci⟩ | ⟨i, x, y⟩ |
      ⟨i, ⟨_|_⟩ | ⟨i2, ci2⟩ | ⟨i2, x2, y2⟩ | ⟨i2, x2⟩ | ⟨i2, x2, y2⟩⟩ | ⟨i, x, y⟩ <;>
    rcases b with ⟨_|_⟩ | ⟨j, cj⟩ | ⟨j, u, v⟩ |
      ⟨j, ⟨_|_⟩ | ⟨j2, cj2⟩ | ⟨j2, u2, v2⟩ | ⟨j2, u2⟩ | ⟨j2, u2, v2⟩⟩ | ⟨j, u, v⟩ <;>
    simp [BoolWire.or, BoolWire.and, BoolWire.inv, BoolWire.inv_with_new_id,
      BoolWire.evalW, IdGenerator.gen]

theorem BoolWire.evalW_inv_with_new_id (env : Nat → Bool) (a : BoolData) (g : IdGenerator) :
    BoolWire.evalW env (BoolWire.inv_with_new_id a g).fst = !(BoolWire.evalW env a) := by
  simp [BoolWire.inv_with_new_id, BoolWire.evalW, IdGenerator.gen]

/-! ### natOfBits facts -/

theorem natOfBits_lt (l : List Bool) : natOfBits l < 2 ^ l.length := by
  induction l with
  | nil => simp [natOfBits]
  | cons b rest ih =>
    simp only [natOfBits, List.length_cons, pow_succ]
    cases b <;> simp [Bool.toNat] <;> omega

theorem natOfBits_append (l1 l2 : List Bool) :
    natOfBits (l1 ++ l2) = natOfBits l1 + 2 ^ l1.length * natOfBits l2 := by
  induction l1 with
  | nil => simp [natOfBits]
  | cons b rest ih =>
    simp only [List.cons_append, natOfBits, List.length_cons, pow_succ, List.append_eq, ih]
    ring

theorem natOfBits_all_false (l : List Bool) (h : ∀ x ∈ l, x = false) :
    natOfBits l = 0 := by
  induction l with
  | nil => rfl
  | cons b rest ih =>
    have hb := h b (by simp)
    simp only [natOfBits, hb, ih (fun x hx => h x (by simp [hx]))]
    rfl

theorem natOfBits_all_true (l : List Bool) (h : ∀ x ∈ l, x = true) :
    natOfBits l = 2 ^ l.length - 1 := by
  induction l with
  | nil => rfl
  | cons b rest ih =>
    have hb := h b (by simp)
    have := ih (fun x hx => h x (by simp [hx]))
    have hpos : 0 < 2 ^ rest.length := Nat.pos_pow_of_pos _ (by decide)
    simp only [natOfBits, hb, this, List.length_cons, pow_succ]
    simp [Bool.toNat]
    omega

theorem natOfBits_not (l : List Bool) :
    natOfBits (l.map (fun b => !b)) = 2 ^ l.length - 1 - natOfBits l := by
  induction l with
  | nil => rfl
  | cons b rest ih =>
    have h1 := natOfBits_lt rest
    have hpos : 0 < 2 ^ rest.length := Nat.pos_pow_of_pos _ (by decide)
    simp only [List.map_cons, natOfBits, ih, List.length_cons, pow_succ]
    cases b <;> simp [Bool.toNat] <;> omega

/-! ### Id ordering machinery (claim C5) -/

/-- Is this node an `Inv` node? -/
def BoolData.isInv : BoolData → Bool
  | .inv _ _ => true
  | _ => false

/-- Is this node a `Const` node? -/
def BoolData.isConstB : BoolData → Bool
  | .const _ => true
  | _ => false

/-- `o < i` read on `Option Nat`, vacuously true for `none` (constants). -/
def ltOptB (o : Option Nat) (i : Nat) : Bool :=
  match o with
  | none => true
  | some j => decide (j < i)

/-- Every node in the tree has an id strictly greater than the ids of its
non-`Const` direct children. -/
def BoolData.idOrdered : BoolData → Bool
  | .const _ => true
  | .input _ _ => true
  | .and i a b => ltOptB (BoolWire.id a) i && ltOptB (BoolWire.id b) i
      && a.idOrdered && b.idOrdered
  | .inv i a => ltOptB (BoolWire.id a) i && a.idOrdered
  | .xor i a b => ltOptB (BoolWire.id a) i && ltOptB (BoolWire.id b) i
      && a.idOrdered && b.idOrdered

/-- Every id occurring in the tree is `< n`. -/
def BoolData.idBound : BoolData → Nat → Bool
  | .const _, _ => true
  | .input i _, n => decide (i < n)
  | .and i a b, n => decide (i < n) && a.idBound n && b.idBound n
  | .inv i a, n => decide (i < n) && a.idBound n
  | .xor i a b, n => decide (i < n) && a.idBound n && b.idBound n

theorem idBound_root (a : BoolData) (n : Nat) (h : a.idBound n = true) :
    ltOptB (BoolWire.id a) n = true := by
  rcases a with ⟨_|_⟩ | ⟨i, ci⟩ | ⟨i, x, y⟩ | ⟨i, x⟩ | ⟨i, x, y⟩ <;>
    simp_all [BoolData.idBound, BoolWire.id, ltOptB]

theorem idBound_mono (a : BoolData) (n m : Nat) (hnm : n ≤ m)
    (h : a.idBound n = true) : a.idBound m = true := by
  induction a with
  | const b => rfl
  | input i ci => simp_all [BoolData.idBound]; omega
  | and i x y ihx ihy =>
    simp_all [BoolData.idBound]
    omega
  | inv i x ihx =>
    simp_all [BoolData.idBound]
    omega
  | xor i x y ihx ihy =>
    simp_all [BoolData.idBound]
    omega

/-- Combined well-formedness facts produced by a smart constructor application:
result ordered, result bounded by the new counter, counter monotone. -/
def CtorOk (a : BoolData) (g : IdGenerator) (r : BoolData × IdGenerator) : Prop :=
  (r.fst).idOrdered = true ∧ (r.fst).idBound r.snd = true ∧ g ≤ r.snd

theorem inv_with_new_id_ok (a : BoolData) (g : IdGenerator)
    (ha : a.idOrdered = true) (hab : a.idBound g = true) :
    CtorOk a g (BoolWire.inv_with_new_id a g) := by
  refine ⟨?_, ?_, ?_⟩ <;>
    simp [BoolWire.inv_with_new_id, IdGenerator.gen, BoolData.idOrdered,
      BoolData.idBound, ha]
  · exact idBound_root a g hab
  · exact idBound_mono a g (g + 1) (by omega) hab

theorem and_ok (a b : BoolData) (g : IdGenerator)
    (ha : a.idOrdered = true) (hb : b.idOrdered = true)
    (hab : a.idBound g = true) (hbb : b.idBound g = true) :
    CtorOk a g (BoolWire.and a b g) := by
  have hra := idBound_root a g hab
  have hrb := idBound_root b g hbb
  have hma := idBound_mono a g (g + 1) (by omega) hab
  have hmb := idBound_mono b g (g + 1) (by omega) hbb
  rcases a with ⟨_|_⟩ | ⟨i, ci⟩ | ⟨i, x, y⟩ | ⟨i, x⟩ | ⟨i, x, y⟩ <;>
    rcases b with ⟨_|_⟩ | ⟨j, cj⟩ | ⟨j, u, v⟩ | ⟨j, u⟩ | ⟨j, u, v⟩ <;>
    exact ⟨by simp_all [BoolWire.and, BoolData.idOrdered, IdGenerator.gen],
      by simp_all [BoolWire.and, BoolData.idBound, IdGenerator.gen],
      by simp [BoolWire.and, IdGenerator.gen] <;> omega⟩

theorem xor_ok (a b : BoolData) (g : IdGenerator)
    (ha : a.idOrdered = true) (hb : b.idOrdered = true)
    (hab : a.idBound g = true) (hbb : b.idBound g = true) :
    CtorOk a g (BoolWire.xor a b g) := by
  have hra := idBound_root a g hab
  have hrb := idBound_root b g hbb
  have hma := idBound_mono a g (g + 1) (by omega) hab
  have hmb := idBound_mono b g (g + 1) (by omega) hbb
  rcases a with ⟨_|_⟩ | ⟨i, ci⟩ | ⟨i, x, y⟩ | ⟨i, x⟩ | ⟨i, x, y⟩ <;>
    rcases b with ⟨_|_⟩ | ⟨j, cj⟩ | ⟨j, u, v⟩ | ⟨j, u⟩ | ⟨j, u, v⟩ <;>
    exact ⟨by simp_all [BoolWire.xor, BoolWire.inv, BoolWire.inv_with_new_id,
        BoolData.idOrdered, IdGenerator.gen],
      by simp_all [BoolWire.xor, BoolWire.inv, BoolWire.inv_with_new_id,
        BoolData.idBound, IdGenerator.gen],
      by simp [BoolWire.xor, BoolWire.inv, BoolWire.inv_with_new_id,
        IdGenerator.gen] <;> omega⟩

theorem inv_ok (a : BoolData) (g : IdGenerator)
    (ha : a.idOrdered = true) (hab : a.idBound g = true) :
    CtorOk a g (BoolWire.inv a g) := by
  have hra := idBound_root a g hab
  rcases a with ⟨_|_⟩ | ⟨i, ci⟩ | ⟨i, x, y⟩ | ⟨i, x⟩ | ⟨i, x, y⟩ <;>
    first
      | exact inv_with_new_id_ok _ g ha hab
      | exact ⟨by simp_all [BoolWire.inv, BoolData.idOrdered],
          by simp_all [BoolWire.inv, BoolData.idBound],
          by simp [BoolWire.inv]⟩

theorem copy_with_new_id_ok (a : BoolData) (g : IdGenerator)
    (ha : a.idOrdered = true) (hab : a.idBound g = true) :
    CtorOk a g (BoolWire.copy_with_new_id a g) := by
  rcases a with ⟨_|_⟩ | ⟨i, ci⟩ | ⟨i, x, y⟩ | ⟨i, x⟩ | ⟨i, x, y⟩
  case inv =>
    have hxo : x.idOrdered = true := by simp_all [BoolData.idOrdered]
    have hxb : x.idBound g = true := by
      have : BoolData.idBound (.inv i x) g = true := hab
      simp_all [BoolData.idBound]
    exact inv_with_new_id_ok x g hxo hxb
  all_goals {
    have h1 := inv_with_new_id_ok _ g ha hab
    obtain ⟨o1, b1, m1⟩ := h1
    have h2 := inv_with_new_id_ok _ _ o1 b1
    obtain ⟨o2, b2, m2⟩ := h2
    exact ⟨o2, b2, le_trans m1 m2⟩
  }

/-! ### Claim C4: bit ids assigned by `new_input` -/

/-- Claim C4 counterexample: the claim predicts that bit `i` of a fresh input
carries id `id_start + (width - 1 - i)`; for `new_input "a" 2` starting at
counter 0 this predicts id `1` for bit `0`, but the source assigns ids in
ascending order without reversing, so bit `0` carries id `0`. -/
theorem claim_C4_counterexample :
    ¬ (BoolWire.id (((ValueWire.new_input "a" 2 0).fst).bits.getD 0 (.const false))
        = some (0 + (2 - 1 - 0))) := by
  decide

/-- Claim C4 (amended): the bits returned by `ValueWire::new_input` are in
LSB-first order and their ids are assigned LSB-first as well — bit `i`
carries id `id_start + i`, where `id_start = peek()` is recorded before the
bits are generated; the bit vector is not reversed. -/
theorem claim_C4 (name : String) (size : Nat) (g : IdGenerator) (i : Nat)
    (h : i < size) :
    ((ValueWire.new_input name size g).fst).bits[i]?
        = some (.input (IdGenerator.peek g + i) ⟨name, IdGenerator.peek g, size⟩)
      ∧ ((ValueWire.new_input name size g).fst).bits.length = size
      ∧ (ValueWire.new_input name size g).snd = IdGenerator.peek g + size := by
  refine ⟨?_, by simp [ValueWire.new_input], by simp [ValueWire.new_input, IdGenerator.peek]⟩
  simp [ValueWire.new_input, IdGenerator.peek, List.getElem?_map, List.getElem?_range, h]

/-- Witness for claim C4 at `name = "a"`, `size = 2`, `g = 0`, `i = 0`. -/
theorem claim_C4_witness :
    ((ValueWire.new_input "a" 2 0).fst).bits[0]? = some (.input 0 ⟨"a", 0, 2⟩) :=
  (claim_C4 "a" 2 0 0 (by decide)).1

/-! ### Claim C5: node ids strictly above child ids -/

/-- Claim C5 counterexample: `or` on two fresh non-constant wires generates
the result id *before* the ids of the nodes beneath it, so the returned
`Inv` node (id 2) has a direct `And` child with the larger id 5; the
ascending-id topological-order property fails for `or`. -/
theorem claim_C5_counterexample :
    BoolData.idOrdered
      ((BoolWire.or (.input 0 ⟨"a", 0, 2⟩) (.input 1 ⟨"a", 0, 2⟩) 2).fst) = false := by
  decide

/-- Claim C5 (amended): for the smart constructors `and`, `xor`, `inv`,
`inv_with_new_id` and `copy_with_new_id` — but not `or`, which allocates its
result id before its children — a node that has an id has an id strictly
greater than the id of each non-`Const` direct child, recursively, whenever
the operands already satisfy the property and their ids are below the current
counter; `new_input` bits satisfy the property as well. -/
theorem claim_C5 (a b : BoolData) (g : IdGenerator) (name : String) (size : Nat)
    (ha : a.idOrdered = true) (hb : b.idOrdered = true)
    (hab : a.idBound g = true) (hbb : b.idBound g = true) :
    CtorOk a g (BoolWire.and a b g)
    ∧ CtorOk a g (BoolWire.xor a b g)
    ∧ CtorOk a g (BoolWire.inv a g)
    ∧ CtorOk a g (BoolWire.inv_with_new_id a g)
    ∧ CtorOk a g (BoolWire.copy_with_new_id a g)
    ∧ (∀ w ∈ ((ValueWire.new_input name size g).fst).bits, w.idOrdered = true) :=
  ⟨and_ok a b g ha hb hab hbb,
   xor_ok a b g ha hb hab hbb,
   inv_ok a g ha hab,
   inv_with_new_id_ok a g ha hab,
   copy_with_new_id_ok a g ha hab,
   by
     intro w hw
     simp only [ValueWire.new_input, List.mem_map, List.mem_range] at hw
     obtain ⟨i, _, rfl⟩ := hw
     rfl⟩

/-- Witness for claim C5 at two fresh input bits and counter 2. -/
theorem claim_C5_witness :
    CtorOk (.input 0 ⟨"a", 0, 2⟩) 2
      (BoolWire.and (.input 0 ⟨"a", 0, 2⟩) (.input 1 ⟨"a", 0, 2⟩) 2) :=
  (claim_C5 (.input 0 ⟨"a", 0, 2⟩) (.input 1 ⟨"a", 0, 2⟩) 2 "b" 1
    (by decide) (by decide) (by decide) (by decide)).1

/-! ### Claim C9: constant folding identities -/

/-- Claim C9 counterexample: `inv(inv(x)) = x` fails structurally when `x` is
itself an `Inv` node: for `x = Inv(1, Input 0)`, the inner `inv` cancels the
negation and returns `Input 0`, and the outer `inv` then allocates a *fresh*
`Inv` node with a new id, so the result is `Inv(2, Input 0) ≠ x`. -/
theorem claim_C9_counterexample :
    (BoolWire.inv
        (BoolWire.inv (.inv 1 (.input 0 ⟨"a", 0, 1⟩)) 2).fst
        (BoolWire.inv (.inv 1 (.input 0 ⟨"a", 0, 1⟩)) 2).snd).fst
      ≠ .inv 1 (.input 0 ⟨"a", 0, 1⟩) := by
  decide

/-- Claim C9 (amended): `and(x, Const true) = x` and `xor(Const false, x) = x`
hold structurally for every `x`, with no id allocated; `inv(inv(x)) = x`
holds structurally for every `x` that is not itself an `Inv` node (for an
`Inv` node the double inversion returns a freshly-numbered copy or a folded
constant instead). -/
theorem claim_C9 (x : BoolData) (g g2 : IdGenerator) :
    BoolWire.and x (.const true) g = (x, g)
    ∧ BoolWire.xor (.const false) x g = (x, g)
    ∧ (BoolData.isInv x = false →
        (BoolWire.inv (BoolWire.inv x g).fst g2).fst = x) := by
  refine ⟨?_, ?_, ?_⟩
  · rcases x with ⟨_|_⟩ | ⟨i, ci⟩ | ⟨i, u, v⟩ | ⟨i, u⟩ | ⟨i, u, v⟩ <;>
      simp [BoolWire.and]
  · rfl
  · intro h
    rcases x with ⟨_|_⟩ | ⟨i, ci⟩ | ⟨i, u, v⟩ | ⟨i, u⟩ | ⟨i, u, v⟩ <;>
      simp_all [BoolData.isInv, BoolWire.inv, BoolWire.inv_with_new_id,
        IdGenerator.gen]

/-- Witness for claim C9 at `x = Input 0`, `g = 5`, `g2 = 77`. -/
theorem claim_C9_witness :
    (BoolWire.inv (BoolWire.inv (.input 0 ⟨"a", 0, 1⟩) 5).fst 77).fst
      = .input 0 ⟨"a", 0, 1⟩ :=
  (claim_C9 (.input 0 ⟨"a", 0, 1⟩) 5 77).2.2 (by decide)

/-! ### Claim C10: empty-width comparisons -/

/-- Claim C10 (confirmed): on two zero-bit values, `equal` returns
`Const true` while the `eq` component of `cmp` is `Const false` (and its
`lt` component is `Const false` too), so the two equality tests disagree on
empty values; `less_than` is `Const false` and the derived
`greater_than_or_eq = inv(less_than)` is still `Const true`. No ids are
allocated by any of these calls. -/
theorem claim_C10 (g g1 g2 g3 : IdGenerator) :
    ValueWire.equal ⟨[]⟩ ⟨[]⟩ g = (.const true, g)
    ∧ ValueWire.cmp ⟨[]⟩ ⟨[]⟩ g1 = ((.const false, .const false), g1)
    ∧ ValueWire.less_than ⟨[]⟩ ⟨[]⟩ g2 = (.const false, g2)
    ∧ ValueWire.greater_than_or_eq ⟨[]⟩ ⟨[]⟩ g3 = (.const true, g3)
    ∧ BoolData.const true ≠ BoolData.const false := by
  refine ⟨?_, ?_, ?_, ?_, by decide⟩
  · rw [ValueWire.equal]; rfl
  · rw [ValueWire.cmp]; rfl
  · simp only [ValueWire.less_than]; rw [ValueWire.cmp]; rfl
  · simp only [ValueWire.greater_than_or_eq, ValueWire.less_than]
    rw [ValueWire.cmp]; rfl

/-! ### Claim C8: constant-shift operand discipline -/

/-- Claim C8 counterexample: the claim says `bit_shl` fails *iff* some bit of
`b` is not `Const`; but `as_usize` also fails when `b` is wider than
`usize::BITS = 64` bits even though every bit is `Const`, so for a 65-bit
all-constant shift amount the shift fails with every bit constant. -/
theorem claim_C8_counterexample :
    ¬ (ValueWire.bit_shl ⟨[.const true]⟩ ⟨List.replicate 65 (.const false)⟩ = none
        ↔ ¬ ((List.replicate 65 (BoolData.const false)).all BoolData.isConstB = true)) := by
  decide

theorem constListVal_eq_none (l : List BoolData) :
    constListVal l = none ↔ l.all BoolData.isConstB = false := by
  induction l with
  | nil => simp [constListVal]
  | cons b rest ih =>
    rcases b with ⟨c⟩ | ⟨i, ci⟩ | ⟨i, u, v⟩ | ⟨i, u⟩ | ⟨i, u, v⟩ <;>
      simp_all [constListVal, BoolData.isConstB]

theorem constListVal_val (l : List BoolData) (n : Nat) (env : Nat → Bool)
    (h : constListVal l = some n) :
    natOfBits (l.map (BoolWire.evalW env)) = n := by
  induction l generalizing n with
  | nil => simp [constListVal] at h; simp [natOfBits, ← h]
  | cons b rest ih =>
    rcases b with ⟨c⟩ | ⟨i, ci⟩ | ⟨i, u, v⟩ | ⟨i, u⟩ | ⟨i, u, v⟩ <;>
      simp_all [constListVal, natOfBits, BoolWire.evalW]
    obtain ⟨m, hm, rfl⟩ := h
    simp [ih m hm]

/-- Claim C8 (amended): `bit_shl(a, b)` and `bit_shr(a, b)` fail if and only
if some bit of `b` is not `Const` *or* `b` is wider than 64 bits
(`usize::BITS`); when `as_usize` succeeds with combined value `n` — which
equals the evaluated value of `b` — they return `a.shift_up_const(n)` and
`a.shift_down_const(n)` respectively. -/
theorem claim_C8 (a b : ValueWire) (env : Nat → Bool) :
    (ValueWire.bit_shl a b = none
        ↔ (64 < b.bits.length ∨ b.bits.all BoolData.isConstB = false))
    ∧ (ValueWire.bit_shr a b = none
        ↔ (64 < b.bits.length ∨ b.bits.all BoolData.isConstB = false))
    ∧ (∀ n, ValueWire.as_usize b = some n →
        ValueWire.bit_shl a b = some (a.shift_up_const n)
        ∧ ValueWire.bit_shr a b = some (a.shift_down_const n)
        ∧ b.val env = n) := by
  refine ⟨?_, ?_, ?_⟩
  · simp only [ValueWire.bit_shl, ValueWire.as_usize, Option.map_eq_none]
    split
    · simp_all
    · simp_all [constListVal_eq_none]
  · simp only [ValueWire.bit_shr, ValueWire.as_usize, Option.map_eq_none]
    split
    · simp_all
    · simp_all [constListVal_eq_none]
  · intro n hn
    refine ⟨by simp [ValueWire.bit_shl, hn], by simp [ValueWire.bit_shr, hn], ?_⟩
    simp only [ValueWire.as_usize] at hn
    split at hn
    · simp at hn
    · exact constListVal_val b.bits n env hn

/-- Witness for claim C8: shifting `[T,F]` by the constant `1` succeeds. -/
theorem claim_C8_witness :
    ValueWire.bit_shl ⟨[.const true, .const false]⟩ ⟨[.const true]⟩
      = some ((ValueWire.mk [.const true, .const false]).shift_up_const 1) :=
  ((claim_C8 ⟨[.const true, .const false]⟩ ⟨[.const true]⟩ (fun _ => false)).2.2
    1 (by decide)).1

/-! ### Counterexamples for claims C1 and C7 -/

/-- Claim C1 counterexample: with `a = [T]` (value 1) and `b = [F]`
(value 0, width `W = 1`), the claim predicts `div(a, b) = 0`; but when the
divisor is zero every `shifts_valid[i]` is true *and* `b << i ≤ rem` is
true, so every quotient bit is set: the quotient evaluates to
`2^W - 1 = 1`, not `0`. -/
theorem claim_C1_counterexample :
    ¬ (((ValueWire.div ⟨[.const true]⟩ ⟨[.const false]⟩ 0).fst).val
        (fun _ => false) = 0) := by
  simp [ValueWire.div, ValueWire.quotient_remainder, ValueWire.qrLoop, ValueWire.svLoop,
    ValueWire.less_than_or_eq, ValueWire.greater_than, ValueWire.less_than, ValueWire.cmp,
    ValueWire.sub, ValueWire.negate, ValueWire.bit_not, ValueWire.invBits, ValueWire.add,
    ValueWire.addLoop, ValueWire.at_, ValueWire.mul_bool, ValueWire.andBits,
    ValueWire.bit_xor, ValueWire.bitXorLoop, ValueWire.resize, ValueWire.new_const,
    constBits, ValueWire.shift_up_const, ValueWire.split_at, BoolWire.and, BoolWire.xor,
    BoolWire.inv, BoolWire.inv_with_new_id, BoolWire.evalW, ValueWire.val, natOfBits,
    IdGenerator.gen]

/-- Claim C7 counterexample: `add` always emits the bit-0 half adder, so on
two zero-width operands (`W = max(|a|,|b|) = 0`) it returns a value of width
1, not width `W = 0`. -/
theorem claim_C7_counterexample :
    ¬ (((ValueWire.add ⟨[]⟩ ⟨[]⟩ 0).fst).bits.length
        = max (List.length ([] : List BoolData)) (List.length ([] : List BoolData))) := by
  decide

/-! ### Ripple-carry adder correctness (claim C7) -/

/-- Pure ripple-carry specification on bit streams: `k` result bits starting
at index `i` with incoming carry `c`, mirroring the loop body of `add`. -/
def rippleFrom (av bv : Nat → Bool) (i : Nat) (c : Bool) : Nat → List Bool
  | 0 => []
  | k + 1 =>
    Bool.xor (Bool.xor (av i) (bv i)) c
      :: rippleFrom av bv (i + 1)
          (Bool.xor (av i && bv i) (c && Bool.xor (av i) (bv i))) k

theorem fullAdder_toNat : ∀ (a b c : Bool),
    (Bool.xor (Bool.xor a b) c).toNat
        + 2 * (Bool.xor (a && b) (c && Bool.xor a b)).toNat
      = a.toNat + b.toNat + c.toNat := by
  decide

theorem halfAdder_toNat : ∀ (a b : Bool),
    (Bool.xor a b).toNat + 2 * (a && b).toNat = a.toNat + b.toNat := by
  decide

theorem addLoop_evals (a b : ValueWire) (env : Nat → Bool) :
    ∀ (k i : Nat) (bits : List BoolData) (carry : BoolData) (g : IdGenerator),
    ((ValueWire.addLoop a b k i bits carry g).fst).map (BoolWire.evalW env)
      = bits.map (BoolWire.evalW env)
        ++ rippleFrom (fun j => BoolWire.evalW env (a.at_ j))
            (fun j => BoolWire.evalW env (b.at_ j)) i (BoolWire.evalW env carry) k := by
  intro k
  induction k with
  | zero => intro i bits carry g; simp [ValueWire.addLoop, rippleFrom]
  | succ k ih =>
    intro i bits carry g
    simp only [ValueWire.addLoop, rippleFrom]
    rw [ih]
    simp [BoolWire.evalW_xor, BoolWire.evalW_and, List.append_assoc]

theorem rippleFrom_length (av bv : Nat → Bool) :
    ∀ (k i : Nat) (c : Bool), (rippleFrom av bv i c k).length = k := by
  intro k
  induction k with
  | zero => intro i c; rfl
  | succ k ih => intro i c; simp [rippleFrom, ih]

theorem natOfBits_rippleFrom (av bv : Nat → Bool) :
    ∀ (k i : Nat) (c : Bool),
    natOfBits (rippleFrom av bv i c k)
      ≡ c.toNat + natOfBits ((List.range' i k).map av)
          + natOfBits ((List.range' i k).map bv) [MOD 2 ^ k] := by
  intro k
  induction k with
  | zero => intro i c; simp [rippleFrom, natOfBits, Nat.ModEq, Nat.mod_one]
  | succ k ih =>
    intro i c
    have h := ih (i + 1) (Bool.xor (av i && bv i) (c && Bool.xor (av i) (bv i)))
    have h2 := Nat.ModEq.mul_left' 2 h
    have hmod : (2:ℕ) * 2 ^ k = 2 ^ (k + 1) := by ring
    rw [hmod] at h2
    have hr : List.range' i (k + 1) = i :: List.range' (i + 1) k := rfl
    rw [hr]
    simp only [rippleFrom, List.map_cons, natOfBits]
    have h3 := Nat.ModEq.add_left
      ((Bool.xor (Bool.xor (av i) (bv i)) c).toNat) h2
    have hfa := fullAdder_toNat (av i) (bv i) c
    have heq : (Bool.xor (Bool.xor (av i) (bv i)) c).toNat
        + 2 * ((Bool.xor (av i && bv i) (c && Bool.xor (av i) (bv i))).toNat
            + natOfBits (List.map av (List.range' (i + 1) k))
            + natOfBits (List.map bv (List.range' (i + 1) k)))
        = c.toNat
          + ((av i).toNat + 2 * natOfBits (List.map av (List.range' (i + 1) k)))
          + ((bv i).toNat + 2 * natOfBits (List.map bv (List.range' (i + 1) k))) := by
      omega
    exact heq ▸ h3

theorem map_at_range' (v : ValueWire) (env : Nat → Bool) (n : Nat)
    (h : v.bits.length ≤ n) :
    (List.range' 0 n).map (fun j => BoolWire.evalW env (v.at_ j))
      = v.bits.map (BoolWire.evalW env) ++ List.replicate (n - v.bits.length) false := by
  apply List.ext_getElem
  · simp; omega
  · intro j h1 h2
    simp only [List.getElem_map, List.getElem_range']
    rcases Nat.lt_or_ge j v.bits.length with hj | hj
    · rw [List.getElem_append_left (by simpa using hj)]
      simp [ValueWire.at_, hj]
    · rw [List.getElem_append_right (by simpa using hj)]
      simp only [List.getElem_replicate]
      simp [ValueWire.at_, Nat.not_lt.mpr hj, BoolWire.evalW]

theorem natOfBits_append_false (l : List Bool) (m : Nat) :
    natOfBits (l ++ List.replicate m false) = natOfBits l := by
  rw [natOfBits_append, natOfBits_all_false (List.replicate m false)]
  · ring
  · intro x hx
    exact List.eq_of_mem_replicate hx

theorem val_range' (v : ValueWire) (env : Nat → Bool) (n : Nat)
    (h : v.bits.length ≤ n) :
    natOfBits ((List.range' 0 n).map (fun j => BoolWire.evalW env (v.at_ j)))
      = v.val env := by
  rw [map_at_range' v env n h, natOfBits_append_false]
  rfl

theorem add_spec (a b : ValueWire) (g : IdGenerator) (env : Nat → Bool) :
    ((ValueWire.add a b g).fst).bits.length = max (max a.bits.length b.bits.length) 1
    ∧ ((ValueWire.add a b g).fst).val env
        = (a.val env + b.val env) % 2 ^ (max (max a.bits.length b.bits.length) 1) := by
  rcases Nat.eq_zero_or_pos (max a.bits.length b.bits.length) with hsz | hsz
  · have ha : a.bits = [] := List.eq_nil_of_length_eq_zero (by omega)
    have hb : b.bits = [] := List.eq_nil_of_length_eq_zero (by omega)
    rcases a with ⟨abits⟩
    rcases b with ⟨bbits⟩
    simp only at ha hb
    subst ha hb
    simp [ValueWire.add, ValueWire.addLoop, ValueWire.at_, BoolWire.xor, BoolWire.and,
      ValueWire.val, natOfBits, BoolWire.evalW]
  · have hadd : (ValueWire.add a b g).fst.bits
        = (ValueWire.addLoop a b (max a.bits.length b.bits.length - 1) 1
            [(BoolWire.xor (a.at_ 0) (b.at_ 0) g).fst]
            (BoolWire.and (a.at_ 0) (b.at_ 0) (BoolWire.xor (a.at_ 0) (b.at_ 0) g).snd).fst
            (BoolWire.and (a.at_ 0) (b.at_ 0)
              (BoolWire.xor (a.at_ 0) (b.at_ 0) g).snd).snd).fst := rfl
    have hmap : (ValueWire.add a b g).fst.bits.map (BoolWire.evalW env)
        = Bool.xor (BoolWire.evalW env (a.at_ 0)) (BoolWire.evalW env (b.at_ 0))
            :: rippleFrom (fun j => BoolWire.evalW env (a.at_ j))
                (fun j => BoolWire.evalW env (b.at_ j)) 1
                (BoolWire.evalW env (a.at_ 0) && BoolWire.evalW env (b.at_ 0))
                (max a.bits.length b.bits.length - 1) := by
      rw [hadd, addLoop_evals]
      simp [BoolWire.evalW_xor, BoolWire.evalW_and]
    have hlen : (ValueWire.add a b g).fst.bits.length = max a.bits.length b.bits.length := by
      have h1 := congrArg List.length hmap
      simp only [List.length_map, List.length_cons, rippleFrom_length] at h1
      omega
    have hmax : max (max a.bits.length b.bits.length) 1 = max a.bits.length b.bits.length := by
      omega
    rw [hmax]
    refine ⟨hlen, ?_⟩
    have hspred : max a.bits.length b.bits.length - 1 + 1
        = max a.bits.length b.bits.length := by omega
    have hval : (ValueWire.add a b g).fst.val env
        = (Bool.xor (BoolWire.evalW env (a.at_ 0)) (BoolWire.evalW env (b.at_ 0))).toNat
          + 2 * natOfBits (rippleFrom (fun j => BoolWire.evalW env (a.at_ j))
              (fun j => BoolWire.evalW env (b.at_ j)) 1
              (BoolWire.evalW env (a.at_ 0) && BoolWire.evalW env (b.at_ 0))
              (max a.bits.length b.bits.length - 1)) := by
      show natOfBits ((ValueWire.add a b g).fst.bits.map (BoolWire.evalW env)) = _
      rw [hmap]
      rfl
    have hmod := natOfBits_rippleFrom (fun j => BoolWire.evalW env (a.at_ j))
      (fun j => BoolWire.evalW env (b.at_ j))
      (max a.bits.length b.bits.length - 1) 1
      (BoolWire.evalW env (a.at_ 0) && BoolWire.evalW env (b.at_ 0))
    have h2 := Nat.ModEq.add_left
      ((Bool.xor (BoolWire.evalW env (a.at_ 0)) (BoolWire.evalW env (b.at_ 0))).toNat)
      (Nat.ModEq.mul_left' 2 hmod)
    have hpow : (2:ℕ) * 2 ^ (max a.bits.length b.bits.length - 1)
        = 2 ^ max a.bits.length b.bits.length := by
      have hstep : (2:ℕ) * 2 ^ (max a.bits.length b.bits.length - 1)
          = 2 ^ (max a.bits.length b.bits.length - 1 + 1) := by ring
      rw [hstep, hspred]
    rw [hpow] at h2
    have hrr : List.range' 0 (max a.bits.length b.bits.length)
        = 0 :: List.range' 1 (max a.bits.length b.bits.length - 1) := by
      rw [← hspred]
      rfl
    have hsa := val_range' a env (max a.bits.length b.bits.length) (by omega)
    have hsb := val_range' b env (max a.bits.length b.bits.length) (by omega)
    rw [hrr] at hsa hsb
    simp only [List.map_cons, natOfBits] at hsa hsb
    have hha := halfAdder_toNat (BoolWire.evalW env (a.at_ 0)) (BoolWire.evalW env (b.at_ 0))
    have heq : (Bool.xor (BoolWire.evalW env (a.at_ 0)) (BoolWire.evalW env (b.at_ 0))).toNat
        + 2 * ((BoolWire.evalW env (a.at_ 0) && BoolWire.evalW env (b.at_ 0)).toNat
            + natOfBits (List.map (fun j => BoolWire.evalW env (a.at_ j))
                (List.range' 1 (max a.bits.length b.bits.length - 1)))
            + natOfBits (List.map (fun j => BoolWire.evalW env (b.at_ j))
                (List.range' 1 (max a.bits.length b.bits.length - 1))))
        = a.val env + b.val env := by
      omega
    have hfinal : (ValueWire.add a b g).fst.val env
        ≡ a.val env + b.val env [MOD 2 ^ max a.bits.length b.bits.length] := by
      rw [hval, ← heq]
      exact h2
    have hlt : (ValueWire.add a b g).fst.val env < 2 ^ max a.bits.length b.bits.length := by
      have := natOfBits_lt ((ValueWire.add a b g).fst.bits.map (BoolWire.evalW env))
      simp only [List.length_map, hlen] at this
      exact this
    have h5 : (ValueWire.add a b g).fst.val env % 2 ^ max a.bits.length b.bits.length
        = (a.val env + b.val env) % 2 ^ max a.bits.length b.bits.length := hfinal
    rwa [Nat.mod_eq_of_lt hlt] at h5

/-- Claim C7 (amended): `add` returns a `ValueWire` of width
`max(max(|a|,|b|), 1)` — the bit-0 half adder is emitted even when both
operands are empty, so the width is 1 rather than 0 in that corner case —
whose evaluated value is `(value(a) + value(b)) mod 2^that`, computed as a
ripple-carry adder whose final carry is discarded, with missing bits reading
as `Const(false)` via `at`. -/
theorem claim_C7 (a b : ValueWire) (g : IdGenerator) (env : Nat → Bool) :
    ((ValueWire.add a b g).fst).bits.length = max (max a.bits.length b.bits.length) 1
    ∧ ((ValueWire.add a b g).fst).val env
        = (a.val env + b.val env) % 2 ^ (max (max a.bits.length b.bits.length) 1) :=
  add_spec a b g env

/-! ### Division by zero (claim C1): supporting lemmas -/

/-- All bits of a value evaluate to `false` under `env`. -/
def ValueWire.allFalseU (v : ValueWire) (env : Nat → Bool) : Prop :=
  ∀ w ∈ v.bits, BoolWire.evalW env w = false

theorem natOfBits_eq_zero_iff (l : List Bool) :
    natOfBits l = 0 ↔ ∀ x ∈ l, x = false := by
  induction l with
  | nil => simp [natOfBits]
  | cons b rest ih =>
    cases b <;> simp [natOfBits, Bool.toNat, ih]

theorem val_eq_zero_iff (v : ValueWire) (env : Nat → Bool) :
    v.val env = 0 ↔ v.allFalseU env := by
  rw [ValueWire.val, natOfBits_eq_zero_iff]
  constructor
  · intro h w hw
    exact h _ (List.mem_map_of_mem _ hw)
  · intro h x hx
    obtain ⟨w, hw, rfl⟩ := List.mem_map.mp hx
    exact h w hw

theorem at_false_of_allFalse (v : ValueWire) (env : Nat → Bool) (j : Nat)
    (h : v.allFalseU env) : BoolWire.evalW env (v.at_ j) = false := by
  unfold ValueWire.at_
  split
  · rename_i hj
    exact h _ (List.get_mem v.bits j hj)
  · rfl

theorem constBits_zero : constBits 0 = [] := by
  rw [constBits]
  split
  · omega
  · rfl

theorem constBits_one : constBits 1 = [.const true] := by
  rw [constBits]
  split
  · norm_num [constBits_zero]
  · omega

theorem new_const_zero_bits : (ValueWire.new_const 0).bits = [] := constBits_zero

theorem resize_length (v : ValueWire) (n : Nat) : (v.resize n).bits.length = n := by
  unfold ValueWire.resize
  split <;> simp_all

theorem resize_val (v : ValueWire) (env : Nat → Bool) (n : Nat)
    (h : v.bits.length ≤ n) : (v.resize n).val env = v.val env := by
  unfold ValueWire.resize
  split
  · rfl
  · show natOfBits _ = _
    rw [List.map_map, List.range_eq_range']
    exact val_range' v env n h

theorem resize_allFalse (v : ValueWire) (env : Nat → Bool) (n : Nat)
    (h : v.allFalseU env) : (v.resize n).allFalseU env := by
  unfold ValueWire.resize
  split
  · exact h
  · intro w hw
    simp only [List.mem_map, List.mem_range] at hw
    obtain ⟨i, _, rfl⟩ := hw
    exact at_false_of_allFalse v env i h

theorem shift_up_allFalse (v : ValueWire) (env : Nat → Bool) (k : Nat)
    (h : v.allFalseU env) : (v.shift_up_const k).allFalseU env := by
  unfold ValueWire.shift_up_const
  split
  · intro w hw
    simp [ValueWire.new_const, constBits_zero] at hw
  · intro w hw
    rcases List.mem_append.mp hw with hw | hw
    · rw [List.eq_of_mem_replicate hw]
      rfl
    · exact h _ (List.mem_of_mem_take hw)

theorem shift_up_length (v : ValueWire) (k : Nat) (h : k < v.bits.length) :
    (v.shift_up_const k).bits.length = v.bits.length := by
  unfold ValueWire.shift_up_const
  split
  · omega
  · simp
    omega

theorem split_at_allFalse (v : ValueWire) (env : Nat → Bool) (p : Nat)
    (h : v.allFalseU env) :
    ((v.split_at p).fst).allFalseU env ∧ ((v.split_at p).snd).allFalseU env := by
  unfold ValueWire.split_at
  split
  · refine ⟨h, ?_⟩
    intro w hw
    simp [ValueWire.new_const, constBits_zero] at hw
  · exact ⟨fun w hw => h _ (List.mem_of_mem_take hw),
      fun w hw => h _ (List.mem_of_mem_drop hw)⟩

theorem cmp_lt_false (env : Nat → Bool) :
    ∀ (n : Nat) (a b : ValueWire) (g : IdGenerator),
      max a.bits.length b.bits.length ≤ n →
      b.allFalseU env →
      BoolWire.evalW env ((ValueWire.cmp a b g).fst.snd) = false := by
  intro n
  induction n using Nat.strong_induction_on with
  | _ n ih =>
    intro a b g hn hb
    rw [ValueWire.cmp]
    split_ifs with h1 h2
    · rfl
    · simp [BoolWire.evalW_and, at_false_of_allFalse b env 0 hb]
    · have hsp := split_at_allFalse b env (max a.bits.length b.bits.length / 2) hb
      have hf := ValueWire.split_at_fst_length
      have hs := ValueWire.split_at_snd_length
      have hlt0 : ∀ g' : IdGenerator, BoolWire.evalW env
          ((ValueWire.cmp (a.split_at (max a.bits.length b.bits.length / 2)).fst
            (b.split_at (max a.bits.length b.bits.length / 2)).fst g').fst.snd) = false :=
        fun g' => ih (max a.bits.length b.bits.length / 2) (by omega)
          (a.split_at (max a.bits.length b.bits.length / 2)).fst
          (b.split_at (max a.bits.length b.bits.length / 2)).fst g'
          (by rw [hf, hf]; omega) hsp.1
      have hlt1 : ∀ g' : IdGenerator, BoolWire.evalW env
          ((ValueWire.cmp (a.split_at (max a.bits.length b.bits.length / 2)).snd
            (b.split_at (max a.bits.length b.bits.length / 2)).snd g').fst.snd) = false :=
        fun g' => ih (max a.bits.length b.bits.length
            - max a.bits.length b.bits.length / 2) (by omega)
          (a.split_at (max a.bits.length b.bits.length / 2)).snd
          (b.split_at (max a.bits.length b.bits.length / 2)).snd g'
          (by rw [hs, hs]; omega) hsp.2
      simp [BoolWire.evalW_xor, BoolWire.evalW_and, hlt0, hlt1]

theorem less_than_or_eq_true (env : Nat → Bool) (a b : ValueWire) (g : IdGenerator)
    (ha : a.allFalseU env) :
    BoolWire.evalW env ((ValueWire.less_than_or_eq a b g).fst) = true := by
  show BoolWire.evalW env
    ((BoolWire.inv ((ValueWire.cmp b a g).fst.snd) (ValueWire.cmp b a g).snd).fst) = true
  rw [BoolWire.evalW_inv,
    cmp_lt_false env (max b.bits.length a.bits.length) b a g (le_refl _) ha]
  rfl

/-! ### Value lemmas for bit_not, negate, sub (claim C1) -/

theorem invBits_evals (env : Nat → Bool) :
    ∀ (l : List BoolData) (g : IdGenerator),
    ((ValueWire.invBits l g).fst).map (BoolWire.evalW env)
      = l.map (fun w => !(BoolWire.evalW env w)) := by
  intro l
  induction l with
  | nil => intro g; rfl
  | cons w rest ih =>
    intro g
    simp [ValueWire.invBits, BoolWire.evalW_inv, ih]

theorem bit_not_evals (env : Nat → Bool) (v : ValueWire) (g : IdGenerator) :
    ((ValueWire.bit_not v g).fst).bits.map (BoolWire.evalW env)
      = v.bits.map (fun w => !(BoolWire.evalW env w)) := by
  show ((ValueWire.invBits v.bits g).fst).map (BoolWire.evalW env) = _
  exact invBits_evals env v.bits g

theorem bit_not_length (v : ValueWire) (g : IdGenerator) :
    ((ValueWire.bit_not v g).fst).bits.length = v.bits.length := by
  have h := congrArg List.length (bit_not_evals (fun _ => false) v g)
  simpa using h

theorem bit_not_val (env : Nat → Bool) (v : ValueWire) (g : IdGenerator) :
    ((ValueWire.bit_not v g).fst).val env
      = 2 ^ v.bits.length - 1 - v.val env := by
  show natOfBits _ = _
  rw [bit_not_evals]
  have h : v.bits.map (fun w => !(BoolWire.evalW env w))
      = (v.bits.map (BoolWire.evalW env)).map (fun b => !b) := by
    rw [List.map_map]
    rfl
  rw [h, natOfBits_not]
  simp [ValueWire.val]

theorem val_lt (v : ValueWire) (env : Nat → Bool) : v.val env < 2 ^ v.bits.length := by
  have := natOfBits_lt (v.bits.map (BoolWire.evalW env))
  simpa [ValueWire.val] using this

theorem new_const_one_val (env : Nat → Bool) : (ValueWire.new_const 1).val env = 1 := by
  simp [ValueWire.new_const, constBits_one, ValueWire.val, natOfBits, BoolWire.evalW]

theorem negate_spec (env : Nat → Bool) (v : ValueWire) (g : IdGenerator)
    (hv : 0 < v.bits.length) :
    ((ValueWire.negate v g).fst).bits.length = v.bits.length
    ∧ ((ValueWire.negate v g).fst).val env
        = (2 ^ v.bits.length - v.val env) % 2 ^ v.bits.length := by
  have hnb := bit_not_length v g
  have hone : (ValueWire.new_const 1).bits.length = 1 := by
    simp [ValueWire.new_const, constBits_one]
  have hadd := add_spec ((ValueWire.bit_not v g).fst) (ValueWire.new_const 1)
    (ValueWire.bit_not v g).snd env
  have hmax : max (max ((ValueWire.bit_not v g).fst).bits.length
      (ValueWire.new_const 1).bits.length) 1 = v.bits.length := by
    rw [hnb, hone]; omega
  rw [hmax] at hadd
  have hv1 := val_lt v env
  have hnegval : ((ValueWire.bit_not v g).fst).val env + (ValueWire.new_const 1).val env
      = 2 ^ v.bits.length - v.val env := by
    rw [bit_not_val, new_const_one_val]
    omega
  refine ⟨?_, ?_⟩
  · show ((ValueWire.add (ValueWire.bit_not v g).fst (ValueWire.new_const 1)
        (ValueWire.bit_not v g).snd).fst).bits.length = _
    rw [hadd.1]
  · show ((ValueWire.add (ValueWire.bit_not v g).fst (ValueWire.new_const 1)
        (ValueWire.bit_not v g).snd).fst).val env = _
    rw [hadd.2, hnegval]

theorem sub_spec_eq_len (env : Nat → Bool) (a b : ValueWire) (g : IdGenerator)
    (hl : b.bits.length = a.bits.length) (hpos : 0 < a.bits.length) :
    ((ValueWire.sub a b g).fst).bits.length = a.bits.length
    ∧ ((ValueWire.sub a b g).fst).val env
        = (a.val env + (2 ^ a.bits.length - b.val env) % 2 ^ a.bits.length)
            % 2 ^ a.bits.length := by
  have hnlt : ¬ (b.bits.length < a.bits.length) := by omega
  have hneg := negate_spec env b g (by omega)
  have hsub : ValueWire.sub a b g
      = ValueWire.add a (ValueWire.negate b g).fst (ValueWire.negate b g).snd := by
    unfold ValueWire.sub
    simp [hnlt]
  have hadd := add_spec a ((ValueWire.negate b g).fst) (ValueWire.negate b g).snd env
  have hmax : max (max a.bits.length ((ValueWire.negate b g).fst).bits.length) 1
      = a.bits.length := by
    rw [hneg.1, hl]; omega
  rw [hmax] at hadd
  rw [hsub]
  refine ⟨hadd.1, ?_⟩
  rw [hadd.2, hneg.2, hl]

/-! ### Value lemmas for mul_bool and bit_xor (claim C1) -/

theorem andBits_evals (env : Nat → Bool) (a : BoolData) :
    ∀ (l : List BoolData) (g : IdGenerator),
    ((ValueWire.andBits a l g).fst).map (BoolWire.evalW env)
      = l.map (fun w => BoolWire.evalW env a && BoolWire.evalW env w) := by
  intro l
  induction l with
  | nil => intro g; rfl
  | cons w rest ih =>
    intro g
    simp [ValueWire.andBits, BoolWire.evalW_and, ih]

theorem mul_bool_evals (env : Nat → Bool) (a : BoolData) (b : ValueWire)
    (g : IdGenerator) :
    ((ValueWire.mul_bool a b g).fst).bits.map (BoolWire.evalW env)
      = b.bits.map (fun w => BoolWire.evalW env a && BoolWire.evalW env w) := by
  show ((ValueWire.andBits a b.bits g).fst).map (BoolWire.evalW env) = _
  exact andBits_evals env a b.bits g

theorem mul_bool_length (a : BoolData) (b : ValueWire) (g : IdGenerator) :
    ((ValueWire.mul_bool a b g).fst).bits.length = b.bits.length := by
  have h := congrArg List.length (mul_bool_evals (fun _ => false) a b g)
  simpa using h

theorem mul_bool_val_true (env : Nat → Bool) (a : BoolData) (b : ValueWire)
    (g : IdGenerator) (h : BoolWire.evalW env a = true) :
    ((ValueWire.mul_bool a b g).fst).val env = b.val env := by
  show natOfBits _ = natOfBits _
  rw [mul_bool_evals]
  simp [h]

theorem mul_bool_allFalse (env : Nat → Bool) (a : BoolData) (b : ValueWire)
    (g : IdGenerator) (h : BoolWire.evalW env a = false) :
    ((ValueWire.mul_bool a b g).fst).allFalseU env := by
  intro w hw
  have hm := List.mem_map_of_mem (BoolWire.evalW env) hw
  rw [mul_bool_evals] at hm
  simp [h] at hm
  exact hm.2

theorem bitXorLoop_evals (env : Nat → Bool) (a b : ValueWire) :
    ∀ (k i : Nat) (g : IdGenerator),
    ((ValueWire.bitXorLoop a b k i g).fst).map (BoolWire.evalW env)
      = (List.range' i k).map
          (fun j => Bool.xor (BoolWire.evalW env (a.at_ j)) (BoolWire.evalW env (b.at_ j))) := by
  intro k
  induction k with
  | zero => intro i g; rfl
  | succ k ih =>
    intro i g
    have hr : List.range' i (k + 1) = i :: List.range' (i + 1) k := rfl
    rw [hr]
    simp [ValueWire.bitXorLoop, BoolWire.evalW_xor, ih]

theorem bit_xor_right_false (env : Nat → Bool) (x y : ValueWire) (g : IdGenerator)
    (hy : y.allFalseU env) (hxy : y.bits.length ≤ x.bits.length) :
    ((ValueWire.bit_xor x y g).fst).bits.length = x.bits.length
    ∧ ((ValueWire.bit_xor x y g).fst).val env = x.val env := by
  have hmax : max x.bits.length y.bits.length = x.bits.length := by omega
  have hevals : ((ValueWire.bit_xor x y g).fst).bits.map (BoolWire.evalW env)
      = (List.range' 0 x.bits.length).map (fun j => BoolWire.evalW env (x.at_ j)) := by
    show ((ValueWire.bitXorLoop x y (max x.bits.length y.bits.length) 0 g).fst).map
        (BoolWire.evalW env) = _
    rw [bitXorLoop_evals, hmax]
    apply List.map_congr_left
    intro j _
    rw [at_false_of_allFalse y env j hy]
    simp
  constructor
  · have h := congrArg List.length hevals
    simpa using h
  · show natOfBits _ = _
    rw [hevals]
    exact val_range' x env x.bits.length (le_refl _)

theorem getD_mem_of_lt {α : Type} (l : List α) (n : Nat) (d : α) (h : n < l.length) :
    l.getD n d ∈ l := by
  rw [List.getD_eq_getElem l d h]
  exact List.getElem_mem h

theorem svLoop_spec (env : Nat → Bool) (b : ValueWire) (size : Nat)
    (hb : b.allFalseU env) :
    ∀ (k i : Nat) (sv : List BoolData) (g : IdGenerator),
      sv.length = i → 0 < i →
      (∀ w ∈ sv, BoolWire.evalW env w = true) →
      (∀ w ∈ (ValueWire.svLoop b size k i sv g).fst, BoolWire.evalW env w = true)
      ∧ ((ValueWire.svLoop b size k i sv g).fst).length = i + k := by
  intro k
  induction k with
  | zero =>
    intro i sv g hl hi hsv
    exact ⟨hsv, by simp [ValueWire.svLoop, hl]⟩
  | succ k ih =>
    intro i sv g hl hi hsv
    have hx : BoolWire.evalW env
        ((BoolWire.and (sv.getD (i - 1) (.const false))
          ((BoolWire.inv (b.at_ (size - i)) g).fst)
          ((BoolWire.inv (b.at_ (size - i)) g).snd)).fst) = true := by
      rw [BoolWire.evalW_and, BoolWire.evalW_inv, at_false_of_allFalse b env _ hb]
      have hmem : sv.getD (i - 1) (.const false) ∈ sv :=
        getD_mem_of_lt sv (i - 1) _ (by omega)
      rw [hsv _ hmem]
      rfl
    have hall : ∀ w ∈ sv ++ [(BoolWire.and (sv.getD (i - 1) (.const false))
          ((BoolWire.inv (b.at_ (size - i)) g).fst)
          ((BoolWire.inv (b.at_ (size - i)) g).snd)).fst],
        BoolWire.evalW env w = true := by
      intro w hw
      rcases List.mem_append.mp hw with hw | hw
      · exact hsv _ hw
      · rw [List.mem_singleton.mp hw]
        exact hx
    have hstep := ih (i + 1)
      (sv ++ [(BoolWire.and (sv.getD (i - 1) (.const false))
          ((BoolWire.inv (b.at_ (size - i)) g).fst)
          ((BoolWire.inv (b.at_ (size - i)) g).snd)).fst])
      ((BoolWire.and (sv.getD (i - 1) (.const false))
          ((BoolWire.inv (b.at_ (size - i)) g).fst)
          ((BoolWire.inv (b.at_ (size - i)) g).snd)).snd)
      (by simp [hl]) (by omega) hall
    exact ⟨hstep.1, hstep.2.trans (by omega)⟩

theorem qrLoop_spec (env : Nat → Bool) (b : ValueWire) (sv : List BoolData) (W : Nat)
    (hb : b.allFalseU env) (hbl : b.bits.length = W)
    (hsv : ∀ w ∈ sv, BoolWire.evalW env w = true) (hsvl : sv.length = W) :
    ∀ (n : Nat), n ≤ W →
    ∀ (q rem : ValueWire) (g : IdGenerator),
      q.bits.length = W →
      (∀ j, n ≤ j → j < W → BoolWire.evalW env (q.bits.getD j (.const false)) = true) →
      rem.bits.length = W →
      ((((ValueWire.qrLoop b sv n q rem g).fst.fst).bits.length = W
        ∧ (∀ j, j < W → BoolWire.evalW env
            (((ValueWire.qrLoop b sv n q rem g).fst.fst).bits.getD j (.const false)) = true))
      ∧ (((ValueWire.qrLoop b sv n q rem g).fst.snd).bits.length = W
        ∧ ((ValueWire.qrLoop b sv n q rem g).fst.snd).val env = rem.val env)) := by
  intro n
  induction n with
  | zero =>
    intro hn q rem g hql hqh hrl
    exact ⟨⟨hql, fun j hj => hqh j (by omega) hj⟩, hrl, rfl⟩
  | succ i ih =>
    intro hn q rem g hql hqh hrl
    have hiW : i < W := by omega
    have hW : 0 < W := by omega
    have hsb_false : (b.shift_up_const i).allFalseU env := shift_up_allFalse b env i hb
    have hsb_len : (b.shift_up_const i).bits.length = W := by
      rw [shift_up_length b i (by omega)]
      exact hbl
    have hless : BoolWire.evalW env
        ((ValueWire.less_than_or_eq (b.shift_up_const i) rem g).fst) = true :=
      less_than_or_eq_true env (b.shift_up_const i) rem g hsb_false
    have happly : BoolWire.evalW env
        ((BoolWire.and (sv.getD i (.const false))
          ((ValueWire.less_than_or_eq (b.shift_up_const i) rem g).fst)
          ((ValueWire.less_than_or_eq (b.shift_up_const i) rem g).snd)).fst) = true := by
      rw [BoolWire.evalW_and, hless,
        hsv _ (getD_mem_of_lt sv i _ (by omega))]
      rfl
    have hsub := sub_spec_eq_len env rem (b.shift_up_const i)
      ((BoolWire.and (sv.getD i (.const false))
        ((ValueWire.less_than_or_eq (b.shift_up_const i) rem g).fst)
        ((ValueWire.less_than_or_eq (b.shift_up_const i) rem g).snd)).snd)
      (by omega) (by omega)
    have hsbval : (b.shift_up_const i).val env = 0 :=
      (val_eq_zero_iff _ env).mpr hsb_false
    have hremlt : rem.val env < 2 ^ rem.bits.length := val_lt rem env
    have harval : ((ValueWire.sub rem (b.shift_up_const i)
        ((BoolWire.and (sv.getD i (.const false))
          ((ValueWire.less_than_or_eq (b.shift_up_const i) rem g).fst)
          ((ValueWire.less_than_or_eq (b.shift_up_const i) rem g).snd)).snd)).fst).val env
        = rem.val env := by
      rw [hsub.2, hsbval, Nat.sub_zero, Nat.mod_self, Nat.add_zero]
      exact Nat.mod_eq_of_lt hremlt
    set A := BoolWire.and (sv.getD i (.const false))
        ((ValueWire.less_than_or_eq (b.shift_up_const i) rem g).fst)
        ((ValueWire.less_than_or_eq (b.shift_up_const i) rem g).snd) with hA
    set S := ValueWire.sub rem (b.shift_up_const i) A.snd with hS
    set q2 : ValueWire := ⟨q.bits.set i A.fst⟩ with hq2
    set M1 := ValueWire.mul_bool A.fst S.fst S.snd with hM1
    set N := BoolWire.inv A.fst M1.snd with hN
    set M2 := ValueWire.mul_bool N.fst rem N.snd with hM2
    set X := ValueWire.bit_xor M1.fst M2.fst M2.snd with hX
    have hunfold : ValueWire.qrLoop b sv (i + 1) q rem g
        = ValueWire.qrLoop b sv i q2 X.fst X.snd := rfl
    have hm1val : (M1.fst).val env = rem.val env := by
      rw [hM1, mul_bool_val_true env A.fst S.fst S.snd happly]
      exact harval
    have hm1len : (M1.fst).bits.length = W := by
      rw [hM1, mul_bool_length]
      rw [hS] at hsub ⊢
      rw [hsub.1, hrl]
    have hnap : BoolWire.evalW env (N.fst) = false := by
      rw [hN, BoolWire.evalW_inv, happly]
      rfl
    have hm2false : (M2.fst).allFalseU env := mul_bool_allFalse env N.fst rem N.snd hnap
    have hm2len : (M2.fst).bits.length = rem.bits.length := mul_bool_length N.fst rem N.snd
    have hxr := bit_xor_right_false env M1.fst M2.fst M2.snd hm2false (by omega)
    have hq2len : q2.bits.length = W := by
      rw [hq2]
      simp [hql]
    have hq2h : ∀ j, i ≤ j → j < W → BoolWire.evalW env (q2.bits.getD j (.const false)) = true := by
      intro j hji hjW
      rw [hq2]
      rcases Nat.eq_or_lt_of_le hji with rfl | hlt
      · rw [List.getD_eq_getElem _ _ (by rw [List.length_set]; omega)]
        rw [List.getElem_set_self (by rw [List.length_set]; omega)]
        exact happly
      · rw [List.getD_eq_getElem _ _ (by rw [List.length_set]; omega)]
        rw [List.getElem_set_ne (by omega)]
        have := hqh j (by omega) hjW
        rwa [List.getD_eq_getElem _ _ (by omega)] at this
    have hih := ih (by omega) q2 X.fst X.snd hq2len hq2h (by rw [hxr.1, hm1len])
    rw [hunfold]
    refine ⟨hih.1, hih.2.1, ?_⟩
    rw [hih.2.2, hxr.2, hm1val]

theorem val_all_true (v : ValueWire) (env : Nat → Bool)
    (h : ∀ j, j < v.bits.length →
      BoolWire.evalW env (v.bits.getD j (.const false)) = true) :
    v.val env = 2 ^ v.bits.length - 1 := by
  show natOfBits _ = _
  rw [natOfBits_all_true]
  · simp
  · intro x hx
    obtain ⟨w, hw, rfl⟩ := List.mem_map.mp hx
    obtain ⟨j, hj, rfl⟩ := List.mem_iff_getElem.mp hw
    have hh := h j hj
    rwa [List.getD_eq_getElem _ _ hj] at hh

theorem quotient_remainder_by_zero (env : Nat → Bool) (a b : ValueWire)
    (g : IdGenerator) (hb : b.allFalseU env) :
    ((ValueWire.quotient_remainder a b g).fst.fst).val env
        = 2 ^ (max a.bits.length b.bits.length) - 1
    ∧ ((ValueWire.quotient_remainder a b g).fst.snd).val env = a.val env := by
  rcases Nat.eq_zero_or_pos (max a.bits.length b.bits.length) with hsz | hsz
  · have ha : a.bits = [] := List.eq_nil_of_length_eq_zero (by omega)
    have hbe : b.bits = [] := List.eq_nil_of_length_eq_zero (by omega)
    rcases a with ⟨abits⟩
    rcases b with ⟨bbits⟩
    simp only at ha hbe
    subst ha hbe
    have hq : ValueWire.quotient_remainder ⟨[]⟩ ⟨[]⟩ g
        = (((ValueWire.new_const 0).resize 0, (ValueWire.mk []).resize 0), g) := rfl
    rw [hq]
    have hq0 : ((ValueWire.new_const 0).resize 0).bits = [] :=
      List.eq_nil_of_length_eq_zero (resize_length _ 0)
    have hr0 : ((ValueWire.mk []).resize 0).bits = [] :=
      List.eq_nil_of_length_eq_zero (resize_length _ 0)
    constructor
    · show natOfBits _ = _
      rw [hq0]
      simp [natOfBits]
    · show natOfBits _ = natOfBits _
      rw [hr0]
  · have hb' : (b.resize (max a.bits.length b.bits.length)).allFalseU env :=
      resize_allFalse b env _ hb
    have hbl' : (b.resize (max a.bits.length b.bits.length)).bits.length
        = max a.bits.length b.bits.length := resize_length b _
    have hsv := svLoop_spec env (b.resize (max a.bits.length b.bits.length))
      (max a.bits.length b.bits.length) hb'
      (max a.bits.length b.bits.length - 1) 1 [.const true] g
      (by simp) (by omega)
      (by intro w hw; rw [List.mem_singleton.mp hw]; rfl)
    have hsvl : ((ValueWire.svLoop (b.resize (max a.bits.length b.bits.length))
        (max a.bits.length b.bits.length)
        (max a.bits.length b.bits.length - 1) 1 [.const true] g).fst).length
        = max a.bits.length b.bits.length := hsv.2.trans (by omega)
    have hqr := qrLoop_spec env (b.resize (max a.bits.length b.bits.length))
      ((ValueWire.svLoop (b.resize (max a.bits.length b.bits.length))
        (max a.bits.length b.bits.length)
        (max a.bits.length b.bits.length - 1) 1 [.const true] g).fst)
      (max a.bits.length b.bits.length) hb' hbl' hsv.1 hsvl
      (max a.bits.length b.bits.length) (le_refl _)
      ((ValueWire.new_const 0).resize (max a.bits.length b.bits.length))
      (a.resize (max a.bits.length b.bits.length))
      ((ValueWire.svLoop (b.resize (max a.bits.length b.bits.length))
        (max a.bits.length b.bits.length)
        (max a.bits.length b.bits.length - 1) 1 [.const true] g).snd)
      (resize_length _ _)
      (fun j h1 h2 => absurd (Nat.lt_of_le_of_lt h1 h2) (lt_irrefl _))
      (resize_length a _)
    have hunfold : ValueWire.quotient_remainder a b g
        = ValueWire.qrLoop (b.resize (max a.bits.length b.bits.length))
            ((ValueWire.svLoop (b.resize (max a.bits.length b.bits.length))
              (max a.bits.length b.bits.length)
              (max a.bits.length b.bits.length - 1) 1 [.const true] g).fst)
            (max a.bits.length b.bits.length)
            ((ValueWire.new_const 0).resize (max a.bits.length b.bits.length))
            (a.resize (max a.bits.length b.bits.length))
            ((ValueWire.svLoop (b.resize (max a.bits.length b.bits.length))
              (max a.bits.length b.bits.length)
              (max a.bits.length b.bits.length - 1) 1 [.const true] g).snd) := rfl
    rw [hunfold]
    constructor
    · rw [val_all_true _ env (fun j hj => hqr.1.2 j (by rw [hqr.1.1] at hj; exact hj)),
        hqr.1.1]
    · rw [hqr.2.2]
      exact resize_val a env _ (by omega)

/-- Claim C1 (amended): when the divisor evaluates to 0, every
`shifts_valid[i]` is true and every comparison `b << i ≤ rem` is true, so
`quotient_remainder` sets *every* quotient bit: `div(a, 0)` evaluates to the
all-ones value `2^W - 1` (W = max(|a|,|b|)), not 0 — matching the repo's own
test oracle `div(a,0) = 0xf` — while `mod_(a, 0)` evaluates to the value of
`a` as the claim states. -/
theorem claim_C1 (a b : ValueWire) (g g2 : IdGenerator) (env : Nat → Bool)
    (hb : b.val env = 0) :
    ((ValueWire.div a b g).fst).val env = 2 ^ (max a.bits.length b.bits.length) - 1
    ∧ ((ValueWire.mod_ a b g2).fst).val env = a.val env := by
  have hbf : b.allFalseU env := (val_eq_zero_iff b env).mp hb
  have h1 := quotient_remainder_by_zero env a b g hbf
  have h2 := quotient_remainder_by_zero env a b g2 hbf
  exact ⟨h1.1, h2.2⟩

/-- Witness for claim C1: dividing the one-bit value 1 by a one-bit input
that evaluates to 0 yields quotient 1 (= 2^1 - 1) and remainder 1. -/
theorem claim_C1_witness :
    ((ValueWire.div ⟨[.const true]⟩ ⟨[.input 0 ⟨"b", 0, 1⟩]⟩ 1).fst).val (fun _ => false) = 1
    ∧ ((ValueWire.mod_ ⟨[.const true]⟩ ⟨[.input 0 ⟨"b", 0, 1⟩]⟩ 1).fst).val (fun _ => false) = 1 := by
  have h := claim_C1 ⟨[.const true]⟩ ⟨[.input 0 ⟨"b", 0, 1⟩]⟩ 1 1 (fun _ => false) rfl
  exact ⟨h.1.trans rfl, h.2.trans rfl⟩

/-! ### The boolean evaluator (claim C2), from src/src/eval.rs -/

/-- Gate from the external bristol_circuit crate as used by eval.rs and
generate_bristol.rs: input wire ids, output wire ids, op string. -/
structure Gate where
  inputs : List Nat
  outputs : List Nat
  op : String
deriving DecidableEq, Repr

/-- The parts of bristol_circuit's CircuitInfo used by the core: the
name-to-wire-index maps for inputs and outputs (HashMaps in the crate,
association lists here). -/
structure CircuitInfo where
  input_name_to_wire_index : List (String × Nat)
  output_name_to_wire_index : List (String × Nat)
deriving DecidableEq, Repr

/-- The parts of bristol_circuit's BristolCircuit used by the core.
eval.rs unwraps `io_widths` (an Option in the crate) with `expect`;
generate_bristol.rs fills it directly, so it is modelled as always present. -/
structure BristolCircuit where
  wire_count : Nat
  info : CircuitInfo
  io_widths : List Nat × List Nat
  gates : List Gate
deriving DecidableEq, Repr

/-- Stable insertion into a list sorted ascending by wire index (models one
step of Rust's stable `sort_by(|a, b| a.1.cmp(b.1))`). -/
def insertByIdx (x : String × Nat) : List (String × Nat) → List (String × Nat)
  | [] => [x]
  | y :: ys => if y.2 ≤ x.2 then y :: insertByIdx x ys else x :: y :: ys

/-- Stable sort by wire index (insertion sort; Rust's `sort_by` is stable). -/
def sortByIdx (l : List (String × Nat)) : List (String × Nat) :=
  l.foldl (fun acc x => insertByIdx x acc) []

/-- `wires[i] = v`, failing (as Rust indexing panics) when out of bounds. -/
def setWire (wires : List Bool) (i : Nat) (v : Bool) : Option (List Bool) :=
  if i < wires.length then some (wires.set i v) else none

/-- Input layout loop of `eval`: `wires[id_start + j] = (value >> (width - j - 1)) & 1`
for `j ∈ [0, width)` — most-significant bit at the lowest address. -/
def layoutInput (wires : List Bool) (id_start width value : Nat) : Option (List Bool) :=
  (List.range width).foldlM
    (fun w j => setWire w (id_start + j) (((value >>> (width - j - 1)) &&& 1) == 1))
    wires

/-- Per-input phase of `eval`: walk the (sorted) inputs in step with
`input_widths` (the length assertion is the shape of the zip), look each
value up, check `value >> width == 0`, and lay out the bits. -/
def evalInputs (inputs : List (String × Nat)) :
    List (String × Nat) → List Nat → List Bool → Option (List Bool)
  | [], [], wires => some wires
  | (name, id_start) :: rest, width :: wrest, wires => do
    let value ← inputs.lookup name
    if value >>> width == 0 then do
      let wires ← layoutInput wires id_start width value
      evalInputs inputs rest wrest wires
    else none
  | _, _, _ => none

/-- One gate step of `eval`: AND/OR/XOR/NOT/COPY, anything else is fatal. -/
def evalGate (wires : List Bool) (gate : Gate) : Option (List Bool) :=
  if gate.op = "AND" then do
    let ai ← gate.inputs[0]?
    let bi ← gate.inputs[1]?
    let ci ← gate.outputs[0]?
    let av ← wires[ai]?
    let bv ← wires[bi]?
    setWire wires ci (av && bv)
  else if gate.op = "OR" then do
    let ai ← gate.inputs[0]?
    let bi ← gate.inputs[1]?
    let ci ← gate.outputs[0]?
    let av ← wires[ai]?
    let bv ← wires[bi]?
    setWire wires ci (av || bv)
  else if gate.op = "XOR" then do
    let ai ← gate.inputs[0]?
    let bi ← gate.inputs[1]?
    let ci ← gate.outputs[0]?
    let av ← wires[ai]?
    let bv ← wires[bi]?
    setWire wires ci (Bool.xor av bv)
  else if gate.op = "NOT" then do
    let ai ← gate.inputs[0]?
    let ci ← gate.outputs[0]?
    let av ← wires[ai]?
    setWire wires ci (!av)
  else if gate.op = "COPY" then do
    let ai ← gate.inputs[0]?
    let ci ← gate.outputs[0]?
    let av ← wires[ai]?
    setWire wires ci av
  else none

/-- Output reassembly loop of `eval`:
`value |= wires[id_start + j] << (width - j - 1)` — the wire at the lowest
address contributes the most-significant bit. -/
def collectOutput (wires : List Bool) (id_start width : Nat) : Option Nat :=
  (List.range width).foldlM
    (fun value j => do
      let bv ← wires[id_start + j]?
      pure (value ||| (bv.toNat <<< (width - j - 1))))
    0

/-- Per-output phase of `eval`. -/
def evalOutputs (wires : List Bool) :
    List (String × Nat) → List Nat → Option (List (String × Nat))
  | [], [] => some []
  | (name, id_start) :: rest, width :: wrest => do
    let value ← collectOutput wires id_start width
    let outs ← evalOutputs wires rest wrest
    pure ((name, value) :: outs)
  | _, _ => none

/-- `eval` from src/src/eval.rs: run a Bristol circuit on named inputs. -/
def eval (circuit : BristolCircuit) (inputs : List (String × Nat)) :
    Option (List (String × Nat)) := do
  let wires := List.replicate circuit.wire_count false
  let sorted_inputs := sortByIdx circuit.info.input_name_to_wire_index
  let wires ← evalInputs inputs sorted_inputs circuit.io_widths.fst wires
  let wires ← circuit.gates.foldlM evalGate wires
  let sorted_outputs := sortByIdx circuit.info.output_name_to_wire_index
  evalOutputs wires sorted_outputs circuit.io_widths.snd

/-- Claim C2 (code bug): for the circuit with a single width-2 input "x" at
address 0 and a single width-1 output "y" at address 0 (no gates), supplying
`x = 1` yields `y = 0`: `eval` writes `wire[A+j] = (v >> (W-1-j)) & 1`, i.e.
the *most*-significant bit at address `A`, so wire 0 receives bit 1 of `x`.
The claim (and the spec, matching the repo's round-trip tests, which fail
under this layout) requires `wire[A+j] = (v >> j) & 1`, which would give
`y = 1` here. -/
theorem claim_C2 :
    eval
      ⟨2, ⟨[("x", 0)], [("y", 0)]⟩, ([2], [1]), []⟩
      [("x", 1)]
      = some [("y", 0)] := by
  rfl

/-! ### The serializer (claims C3 and C6), from src/src/generate_bristol.rs -/

/-- CircuitOutput from src/src/circuit_output.rs. -/
structure CircuitOutput where
  name : String
  value : ValueWire
deriving DecidableEq, Repr

/-- `usize::MAX` on a 64-bit target. -/
def USIZE_MAX : Nat := 2 ^ 64 - 1

/-- WireIdMapper from src/src/generate_bristol.rs: ordinary ids allocated
from 0 upward in `map`, temporary output ids from `usize::MAX` downward in
`temp_output_map`. HashMaps are modelled as association lists. -/
structure WireIdMapper where
  map : List (Nat × Nat)
  next_id : Nat
  temp_output_map : List (Nat × Nat)
  next_output_id : Nat
deriving DecidableEq, Repr

/-- HashMap `get` on an association list. -/
def lookupA (l : List (Nat × Nat)) (k : Nat) : Option Nat :=
  (l.find? (fun p => p.1 == k)).map Prod.snd

/-- `WireIdMapper::new`. -/
def WireIdMapper.new : WireIdMapper := ⟨[], 0, [], USIZE_MAX⟩

/-- `WireIdMapper::get_existing`: check `map`, then `temp_output_map`. -/
def WireIdMapper.get_existing (m : WireIdMapper) (old_id : Nat) : Option Nat :=
  match lookupA m.map old_id with
  | some new_id => some new_id
  | none => lookupA m.temp_output_map old_id

/-- `WireIdMapper::get`: return the existing mapping or mint the next
ordinary id. -/
def WireIdMapper.get (m : WireIdMapper) (old_id : Nat) : Nat × WireIdMapper :=
  match m.get_existing old_id with
  | some new_id => (new_id, m)
  | none => (m.next_id,
      { m with map := m.map ++ [(old_id, m.next_id)], next_id := m.next_id + 1 })

/-- `WireIdMapper::get_temp_output`: return the existing mapping or mint the
next temporary output id, counting down from `usize::MAX`. -/
def WireIdMapper.get_temp_output (m : WireIdMapper) (old_id : Nat) : Nat × WireIdMapper :=
  match m.get_existing old_id with
  | some new_id => (new_id, m)
  | none => (m.next_output_id,
      { m with temp_output_map := m.temp_output_map ++ [(old_id, m.next_output_id)],
               next_output_id := m.next_output_id - 1 })

/-- Loop of `WireIdMapper::finalize_outputs`: `r` iterations remaining,
`i` the current index; `rev` is the reverse map built once before the loop.
The `expect` and the `assert!` are modelled as `none`. -/
def WireIdMapper.finalizeLoop (rev : List (Nat × Nat)) :
    Nat → Nat → WireIdMapper → List (Nat × Nat) →
    Option (WireIdMapper × List (Nat × Nat))
  | 0, _, m, update => some (m, update)
  | r + 1, i, m, update =>
    let temp_id := USIZE_MAX - i
    match lookupA rev temp_id with
    | none => none
    | some old_id =>
      if (lookupA m.map old_id).isSome then none
      else
        let m := { m with
          temp_output_map := m.temp_output_map.filter (fun p => p.1 != old_id) }
        let (proper_id, m) := m.get old_id
        WireIdMapper.finalizeLoop rev r (i + 1) m (update ++ [(temp_id, proper_id)])

/-- Gate rewrite at the end of `finalize_outputs`: substitute any temp id
appearing in a gate's inputs or outputs. -/
def applyUpdate (update : List (Nat × Nat)) (gates : List Gate) : List Gate :=
  gates.map (fun gate =>
    ⟨gate.inputs.map (fun i => (lookupA update i).getD i),
     gate.outputs.map (fun i => (lookupA update i).getD i),
     gate.op⟩)

/-- `WireIdMapper::finalize_outputs`. -/
def WireIdMapper.finalize_outputs (m : WireIdMapper) (gates : List Gate) :
    Option (WireIdMapper × List Gate) :=
  let rev := m.temp_output_map.map (fun p => (p.2, p.1))
  match WireIdMapper.finalizeLoop rev m.temp_output_map.length 0 m [] with
  | none => none
  | some (m, update) => some (m, applyUpdate update gates)

/-- Ordered insert (BTreeMap keyed by `id_start`), returning the previous
binding if the key was present. -/
def btreeInsert (l : List (Nat × CircuitInput)) (k : Nat) (v : CircuitInput) :
    Option CircuitInput × List (Nat × CircuitInput) :=
  match l with
  | [] => (none, [(k, v)])
  | (k2, v2) :: rest =>
    if k < k2 then (none, (k, v) :: (k2, v2) :: rest)
    else if k = k2 then (some v2, (k, v) :: rest)
    else
      let (prev, rest2) := btreeInsert rest k v
      (prev, (k2, v2) :: rest2)

/-- `collect_inputs` from src/src/generate_bristol.rs. The source's match
names `Or`, `Not` and `Copy` variants that `BoolData` (bool_wire.rs) does not
define and has *no arm* for `Inv`, so a graph containing an `Inv` node cannot
be traversed: modelled as `none`. The `assert!(std::ptr::eq(..))` on a
recurring `id_start` is modelled as structural equality of the two
`CircuitInput`s. -/
def collect_inputs (w : BoolData)
    (st : List (Nat × CircuitInput) × List Nat) :
    Option (List (Nat × CircuitInput) × List Nat) :=
  match BoolWire.id w with
  | none => some st
  | some i =>
    if i ∈ st.snd then some st
    else
      let visited := i :: st.snd
      match w with
      | .input _ ci =>
        let (prev, inputs2) := btreeInsert st.fst ci.id_start ci
        match prev with
        | some prev_ci =>
          if prev_ci = ci then some (inputs2, visited) else none
        | none => some (inputs2, visited)
      | .and _ a b => do
        let st2 ← collect_inputs a (st.fst, visited)
        collect_inputs b st2
      | .xor _ a b => do
        let st2 ← collect_inputs a (st.fst, visited)
        collect_inputs b st2
      | .const _ => some (st.fst, visited)
      | .inv _ _ => none

/-- Modelled from the spec: `BoolWire::not` is called by generate_bristol.rs
(`BoolWire::not(&special_false)`) but no such function is defined in
src/src/bool_wire.rs; spec §4.2 defines the negation smart constructor
`inv(a)` ("i.e., NOT"), so `not` is modelled as `inv`. -/
def BoolWire.not (a : BoolData) (g : IdGenerator) : BoolData × IdGenerator :=
  BoolWire.inv a g

/-- Modelled from the spec: `BoolWire::copy` is called by generate_bristol.rs
(`BoolWire::copy(&bit)` when an output bit aliases an input wire) but no such
function is defined in src/src/bool_wire.rs; spec §4.2 describes wire
duplication as `copy_with_new_id` (double inversion under fresh ids), so
`copy` is modelled as `copy_with_new_id`. -/
def BoolWire.copy (a : BoolData) (g : IdGenerator) : BoolData × IdGenerator :=
  BoolWire.copy_with_new_id a g

/-- State of the gate-emission phase: emitted gates, the id mapper, and the
set of already-generated node ids. -/
structure GenSt where
  gates : List Gate
  mapper : WireIdMapper
  generated_ids : List Nat
deriving DecidableEq, Repr

/-- `generated_ids.insert(id)` for an optional id: the `Bool` is whether the
id was freshly inserted (and hence the node must be processed). -/
def tryInsert (st : GenSt) (o : Option Nat) : Bool × GenSt :=
  match o with
  | none => (false, st)
  | some i =>
    if i ∈ st.generated_ids then (false, st)
    else (true, { st with generated_ids := i :: st.generated_ids })

/-- Body of `generate_gates` for a node whose id was freshly inserted. The
iterative post-order DFS of the source (push node marked visited, push `b`
then `a`, process `a` fully, then `b`, then emit the node) is rendered as
structural recursion with the same insertion and processing order. As in
`collect_inputs`, the source's match has no arm for `Inv` (it matches `Not`
and `Copy` variants that `BoolData` does not define, emitting op strings
"NOT" and "COPY"), so an `Inv` node aborts: modelled as `none`; `Const`
mid-graph is the source's explicit panic. -/
def genGatesVisit : BoolData → GenSt → Option GenSt
  | .input _ _, st => some st
  | .and i a b, st =>
    let (freshB, st) := tryInsert st (BoolWire.id b)
    let (freshA, st) := tryInsert st (BoolWire.id a)
    (do
      let st ← if freshA then genGatesVisit a st else some st
      let st ← if freshB then genGatesVisit b st else some st
      match BoolWire.id a, BoolWire.id b with
      | some ai, some bi =>
        let (a_id, m) := st.mapper.get ai
        let (b_id, m) := m.get bi
        let (out_id, m) := m.get i
        some { st with gates := st.gates ++ [⟨[a_id, b_id], [out_id], "AND"⟩], mapper := m }
      | _, _ => none)
  | .xor i a b, st =>
    let (freshB, st) := tryInsert st (BoolWire.id b)
    let (freshA, st) := tryInsert st (BoolWire.id a)
    (do
      let st ← if freshA then genGatesVisit a st else some st
      let st ← if freshB then genGatesVisit b st else some st
      match BoolWire.id a, BoolWire.id b with
      | some ai, some bi =>
        let (a_id, m) := st.mapper.get ai
        let (b_id, m) := m.get bi
        let (out_id, m) := m.get i
        some { st with gates := st.gates ++ [⟨[a_id, b_id], [out_id], "XOR"⟩], mapper := m }
      | _, _ => none)
  | .inv _ _, _ => none
  | .const _, _ => none

/-- `generate_gates` from src/src/generate_bristol.rs: skip the start node
when it has no id or was already generated, otherwise insert its id and
process it. -/
def genGatesStart (start : BoolData) (st : GenSt) : Option GenSt :=
  match BoolWire.id start with
  | none => some st
  | some i =>
    if i ∈ st.generated_ids then some st
    else genGatesVisit start { st with generated_ids := i :: st.generated_ids }

/-- Per-bit output preparation (Phase 2 of generate_bristol): replace
constant output bits by the special wires, and copy any output bit whose id
already exists in the mapper (it aliases an input wire or an earlier output
bit); then register the id as a temporary output id. -/
def phase2Bit (special_false special_true : BoolData)
    (m : WireIdMapper) (g : IdGenerator) (bit : BoolData) :
    Option (BoolData × WireIdMapper × IdGenerator) :=
  let bit :=
    match bit with
    | .const false => special_false
    | .const true => special_true
    | other => other
  match BoolWire.id bit with
  | none => none
  | some id0 =>
    if (m.get_existing id0).isSome then
      let (copyBit, g) := BoolWire.copy bit g
      match BoolWire.id copyBit with
      | none => none
      | some id1 =>
        let (_, m) := m.get_temp_output id1
        some (copyBit, m, g)
    else
      let (_, m) := m.get_temp_output id0
      some (bit, m, g)

/-- Phase 2 over the bits of one output. -/
def phase2Bits (special_false special_true : BoolData) :
    List BoolData → WireIdMapper → IdGenerator →
    Option (List BoolData × WireIdMapper × IdGenerator)
  | [], m, g => some ([], m, g)
  | b :: bs, m, g => do
    let (b2, m, g) ← phase2Bit special_false special_true m g b
    let (bs2, m, g) ← phase2Bits special_false special_true bs m g
    pure (b2 :: bs2, m, g)

/-- Phase 2 over all outputs. -/
def phase2 (special_false special_true : BoolData) :
    List CircuitOutput → WireIdMapper → IdGenerator →
    Option (List CircuitOutput × WireIdMapper × IdGenerator)
  | [], m, g => some ([], m, g)
  | out :: rest, m, g => do
    let (bits2, m, g) ← phase2Bits special_false special_true out.value.bits m g
    let (rest2, m, g) ← phase2 special_false special_true rest m g
    pure (⟨out.name, ⟨bits2⟩⟩ :: rest2, m, g)

/-- Result of `generate_bristol` together with the internal state needed to
state wire-layout properties: the final mapper, the collected inputs (in
`id_start` order) and the post-phase-2 outputs. -/
structure GenResult where
  circuit : BristolCircuit
  mapper : WireIdMapper
  inputs : List (Nat × CircuitInput)
  outputs2 : List CircuitOutput
deriving DecidableEq, Repr

/-- `generate_bristol` from src/src/generate_bristol.rs, returning the
internal state alongside the circuit. `g` is the state of the shared id
generator (the source reads it out of the first output's `id_gen`). -/
def generate_bristol_impl (outputs : List CircuitOutput) (g : IdGenerator) :
    Option GenResult := do
  let st ← outputs.foldlM
    (fun st out => out.value.bits.foldlM (fun st bit => collect_inputs bit st) st)
    (([], []) : List (Nat × CircuitInput) × List Nat)
  let inputs := st.fst
  let m := inputs.foldl
    (fun m p => (List.range p.snd.size).foldl
      (fun m i => (WireIdMapper.get m (p.snd.id_start + i)).snd) m)
    WireIdMapper.new
  let first_input ← (inputs.head?).map Prod.snd
  let _ ← outputs.head?
  let first_wire : BoolData := .input first_input.id_start first_input
  let (special_false, g) := BoolWire.xor first_wire first_wire g
  let (special_true, g) := BoolWire.not special_false g
  let (outputs2, m, _g) ← phase2 special_false special_true outputs m g
  let st2 ← outputs2.foldlM
    (fun st out => out.value.bits.foldlM (fun st bit => genGatesStart bit st) st)
    (⟨[], m, []⟩ : GenSt)
  let (m, gates) ← WireIdMapper.finalize_outputs st2.mapper st2.gates
  let input_pairs ← inputs.mapM (fun p => do
    let idx ← m.get_existing p.snd.id_start
    pure (p.snd.name, idx))
  let output_pairs ← outputs2.mapM (fun out => do
    let first ← out.value.bits.head?
    let oldId ← BoolWire.id first
    let idx ← m.get_existing oldId
    pure (out.name, idx))
  let input_widths := inputs.map (fun p => p.snd.size)
  let output_widths := outputs2.map (fun out => out.value.bits.length)
  pure ⟨⟨m.map.length, ⟨input_pairs, output_pairs⟩, (input_widths, output_widths), gates⟩,
    m, inputs, outputs2⟩

/-- `generate_bristol`, the circuit alone. -/
def generate_bristol (outputs : List CircuitOutput) (g : IdGenerator) :
    Option BristolCircuit :=
  (generate_bristol_impl outputs g).map GenResult.circuit

/-- Claim C3 (code bug): the gate-emission match of generate_gates has no arm
for `Inv` nodes (it matches `Not`/`Copy`/`Or` variants that `BoolData` does
not define, and those arms emit op strings "NOT", "COPY" and "OR"), so a
circuit containing an `Inv` node — such as the `c = a << 1` circuit of
test_2bit_shl, whose expected Bristol output contains `1 1 2 3 INV` lines —
cannot be serialized at all, and no gate with op "INV" is ever produced. -/
theorem claim_C3 :
    genGatesStart (.inv 1 (.input 0 ⟨"a", 0, 1⟩)) ⟨[], WireIdMapper.new, []⟩ = none := by
  rfl

/-! ### Wire-range layout (claim C6): definitions -/

/-- Old (pre-serialization) ids of the declared input bits, in declared
(ascending `id_start`) order: the ids registered by the mapper
pre-registration loop of generate_bristol. -/
def inputBitOldIds (inputs : List (Nat × CircuitInput)) : List Nat :=
  (inputs.map (fun p => (List.range p.snd.size).map (fun i => p.snd.id_start + i))).join

/-- Old ids of the output bit positions, in declared order. -/
def outputBitOldIds (outputs : List CircuitOutput) : List (Option Nat) :=
  (outputs.map (fun out => out.value.bits.map BoolWire.id)).join

/-- Old output bit ids as plain naturals (defaulting 0 for idless constants;
used under the hypothesis that no output bit is a constant). -/
def outputIdsD (outputs : List CircuitOutput) : List Nat :=
  (outputs.map (fun out => out.value.bits.map (fun b => (BoolWire.id b).getD 0))).join

def sumInputWidths (inputs : List (Nat × CircuitInput)) : Nat :=
  (inputs.map (fun p => p.snd.size)).sum

def sumOutputWidths (outputs : List CircuitOutput) : Nat :=
  (outputs.map (fun out => out.value.bits.length)).sum

/-- The wire-range layout stated by claim C6, as a property of a
generate_bristol run: the final wire ids of the declared input bits are
exactly `[0, Σ widths_in)` in declared order, and the final wire ids of the
output bits are exactly the top `Σ widths_out` ids in declared order. -/
def layoutClaim (r : GenResult) : Prop :=
  (inputBitOldIds r.inputs).map (fun i => lookupA r.mapper.map i)
    = (List.range (sumInputWidths r.inputs)).map some
  ∧ (outputBitOldIds r.outputs2).map (fun o => o.bind (fun i => lookupA r.mapper.map i))
    = (List.range' (r.circuit.wire_count - sumOutputWidths r.outputs2)
        (sumOutputWidths r.outputs2)).map some

instance (r : GenResult) : Decidable (layoutClaim r) := by
  unfold layoutClaim
  infer_instance

/-- Claim C6 counterexample: two reachable `CircuitInput`s with distinct
`id_start` but overlapping id ranges (`x` covering ids {0,1}, `y` covering
ids {1,2}) pass every assertion; generate_bristol returns a circuit with
`Σ widths_in = 4` but the input bits' final ids are [0, 1, 1, 2] — they do
not occupy `[0, 4)` (id 3 is the output wire). -/
theorem claim_C6_counterexample :
    (generate_bristol_impl
        [⟨"c", ⟨[.and 10 (.input 0 ⟨"x", 0, 2⟩) (.input 2 ⟨"y", 1, 2⟩)]⟩⟩] 11).map
      (fun r => decide (layoutClaim r)) = some false := by
  rfl

/-! ### Association-list and zip lemmas for the layout proof -/

theorem lookupA_append (l1 l2 : List (Nat × Nat)) (k : Nat) :
    lookupA (l1 ++ l2) k
      = match lookupA l1 k with
        | some v => some v
        | none => lookupA l2 k := by
  induction l1 with
  | nil => simp [lookupA]
  | cons p rest ih =>
    by_cases hp : p.1 = k
    · simp [lookupA, hp]
    · simp only [lookupA, List.cons_append, List.find?] at ih ⊢
      have : (p.1 == k) = false := by simp [hp]
      rw [this]
      simpa [lookupA] using ih

theorem lookupA_eq_none (l : List (Nat × Nat)) (k : Nat) :
    lookupA l k = none ↔ ∀ p ∈ l, p.1 ≠ k := by
  unfold lookupA
  rw [Option.map_eq_none', List.find?_eq_none]
  simp

theorem lookupA_isSome_of_mem (l : List (Nat × Nat)) (p : Nat × Nat)
    (h : p ∈ l) : (lookupA l p.1).isSome := by
  rcases he : lookupA l p.1 with _ | v
  · rw [lookupA_eq_none] at he
    exact absurd rfl (he p h)
  · rfl

theorem lookupA_eq_some_mem (l : List (Nat × Nat)) (k v : Nat)
    (h : lookupA l k = some v) : (k, v) ∈ l ∧ ∃ p ∈ l, p.1 = k := by
  unfold lookupA at h
  rcases hf : l.find? (fun p => p.1 == k) with _ | p
  · rw [hf] at h
    simp at h
  · rw [hf] at h
    simp at h
    have hmem := List.mem_of_find?_eq_some hf
    have hkey := List.find?_some hf
    simp at hkey
    constructor
    · have hpe : (p.1, p.2) = p := rfl
      rw [← hkey, ← h, hpe]
      exact hmem
    · exact ⟨p, hmem, hkey⟩

theorem lookupA_zip_not_mem (K L : List Nat) (k : Nat) (h : k ∉ K) :
    lookupA (K.zip L) k = none := by
  rw [lookupA_eq_none]
  intro p hp
  have := List.of_mem_zip hp
  intro hk
  exact h (hk ▸ this.1)

theorem lookupA_filter_ne (l : List (Nat × Nat)) (k : Nat) :
    lookupA (l.filter (fun p => p.1 != k)) k = none := by
  rw [lookupA_eq_none]
  intro p hp
  have := List.of_mem_filter hp
  simpa using this

theorem lookupA_zip_nodup (K : List Nat) :
    ∀ (L : List Nat), K.Nodup → K.length = L.length →
    ∀ (j : Nat) (hj : j < K.length) (hj2 : j < L.length),
    lookupA (K.zip L) K[j] = some L[j] := by
  induction K with
  | nil =>
    intro L _ _ j hj _
    simp at hj
  | cons k K' ih =>
    intro L hK hlen j hj hj2
    rcases L with _ | ⟨v, L'⟩
    · simp at hlen
    · have hK' := List.nodup_cons.mp hK
      rcases j with _ | j
      · simp [lookupA, List.zip_cons_cons, List.find?]
      · have hjK : j < K'.length := by simpa using hj
        have hjL : j < L'.length := by simpa using hj2
        have hne : (k == K'[j]) = false := by
          simp only [beq_eq_false_iff_ne]
          intro he
          exact hK'.1 (he ▸ List.getElem_mem hjK)
        simp only [List.zip_cons_cons, List.getElem_cons_succ]
        show lookupA ((k, v) :: K'.zip L') K'[j] = some L'[j]
        unfold lookupA
        simp only [List.find?, hne]
        have := ih L' hK'.2 (by simpa using hlen) j hjK (by simpa using hj2)
        simpa [lookupA] using this

/-! ### Registration-phase lemmas (claim C6) -/

theorem get_existing_none_iff (m : WireIdMapper) (k : Nat) :
    m.get_existing k = none
      ↔ lookupA m.map k = none ∧ lookupA m.temp_output_map k = none := by
  unfold WireIdMapper.get_existing
  rcases h : lookupA m.map k with _ | v <;> simp [h]

/-- Registration fold: `get` over a list of keys, keeping only the mapper. -/
def regFold (K : List Nat) (m : WireIdMapper) : WireIdMapper :=
  K.foldl (fun m k => (WireIdMapper.get m k).snd) m

theorem regFold_nested (inputs : List (Nat × CircuitInput)) :
    ∀ (m : WireIdMapper),
    inputs.foldl
      (fun m p => (List.range p.snd.size).foldl
        (fun m i => (WireIdMapper.get m (p.snd.id_start + i)).snd) m) m
      = regFold (inputBitOldIds inputs) m := by
  induction inputs with
  | nil => intro m; rfl
  | cons p rest ih =>
    intro m
    have hj : inputBitOldIds (p :: rest)
        = (List.range p.snd.size).map (fun i => p.snd.id_start + i)
            ++ inputBitOldIds rest := by
      simp [inputBitOldIds]
    rw [List.foldl_cons, ih, hj]
    unfold regFold
    rw [List.foldl_append, List.foldl_map]

theorem regFold_spec (K : List Nat) :
    ∀ (m : WireIdMapper), K.Nodup → (∀ k ∈ K, m.get_existing k = none) →
    (regFold K m).map = m.map ++ K.zip (List.range' m.next_id K.length)
    ∧ (regFold K m).next_id = m.next_id + K.length
    ∧ (regFold K m).temp_output_map = m.temp_output_map
    ∧ (regFold K m).next_output_id = m.next_output_id := by
  induction K with
  | nil => intro m _ _; simp [regFold]
  | cons k K' ih =>
    intro m hnd hnone
    have hk := hnone k (by simp)
    have hstep : (WireIdMapper.get m k).snd
        = ⟨m.map ++ [(k, m.next_id)], m.next_id + 1,
            m.temp_output_map, m.next_output_id⟩ := by
      unfold WireIdMapper.get
      rw [hk]
    have hnd' := List.nodup_cons.mp hnd
    have hnone' : ∀ k' ∈ K',
        (⟨m.map ++ [(k, m.next_id)], m.next_id + 1,
            m.temp_output_map, m.next_output_id⟩ : WireIdMapper).get_existing k' = none := by
      intro k' hk'
      rw [get_existing_none_iff]
      have h0 := (get_existing_none_iff m k').mp (hnone k' (by simp [hk']))
      constructor
      · show lookupA (m.map ++ [(k, m.next_id)]) k' = none
        rw [lookupA_append, h0.1]
        have hne : ¬ (k = k') := fun he => hnd'.1 (he ▸ hk')
        have hb : (k == k') = false := beq_eq_false_iff_ne.mpr hne
        simp [lookupA, List.find?, hb]
      · exact h0.2
    have hrec := ih _ hnd'.2 hnone'
    have hfold : regFold (k :: K') m
        = regFold K' ⟨m.map ++ [(k, m.next_id)], m.next_id + 1,
            m.temp_output_map, m.next_output_id⟩ := by
      unfold regFold
      simp only [List.foldl_cons]
      rw [hstep]
    rw [hfold]
    refine ⟨?_, ?_, hrec.2.2.1, hrec.2.2.2⟩
    · rw [hrec.1]
      show m.map ++ [(k, m.next_id)] ++ K'.zip (List.range' (m.next_id + 1) K'.length)
        = m.map ++ (k :: K').zip (List.range' m.next_id (k :: K').length)
      rw [List.append_assoc]
      rfl
    · rw [hrec.2.1]
      show m.next_id + 1 + K'.length = m.next_id + (K'.length + 1)
      omega

/-! ### Temporary-output id sequence (claim C6) -/

/-- The descending sequence `s, s-1, …` of length `k`: the temporary output
ids minted by successive `get_temp_output` calls, starting at `usize::MAX`. -/
def descFrom : Nat → Nat → List Nat
  | _, 0 => []
  | s, k + 1 => s :: descFrom (s - 1) k

theorem descFrom_length : ∀ (s k : Nat), (descFrom s k).length = k := by
  intro s k
  induction k generalizing s with
  | zero => rfl
  | succ k ih => simp [descFrom, ih]

theorem descFrom_append : ∀ (k1 s k2 : Nat),
    descFrom s (k1 + k2) = descFrom s k1 ++ descFrom (s - k1) k2 := by
  intro k1
  induction k1 with
  | zero => intro s k2; simp [descFrom]
  | succ k ih =>
    intro s k2
    have h1 : k + 1 + k2 = (k + k2) + 1 := by omega
    rw [h1]
    show s :: descFrom (s - 1) (k + k2)
      = (s :: descFrom (s - 1) k) ++ descFrom (s - (k + 1)) k2
    rw [ih (s - 1) k2]
    have h2 : s - 1 - k = s - (k + 1) := by omega
    rw [h2]
    rfl

theorem lookupA_descFrom_zip : ∀ (k s : Nat) (L : List Nat), k = L.length → k ≤ s + 1 →
    ∀ (i : Nat), i < k → ∀ (hi2 : i < L.length),
    lookupA ((descFrom s k).zip L) (s - i) = some (L.get ⟨i, hi2⟩) := by
  intro k
  induction k with
  | zero => intro s L _ _ i hi _; omega
  | succ k ih =>
    intro s L hlen hs i hi hi2
    rcases L with _ | ⟨v, L'⟩
    · simp at hlen
    · rcases i with _ | i
      · show lookupA ((s :: descFrom (s - 1) k).zip (v :: L')) (s - 0) = some v
        simp [lookupA, List.zip_cons_cons, List.find?]
      · have hik : i < k := by omega
        have hiL : i < L'.length := by
          simp only [List.length_cons] at hi2; omega
        have hks : k ≤ s := by omega
        have hne : (s == s - (i + 1)) = false := by
          simp only [beq_eq_false_iff_ne]
          omega
        show lookupA ((s :: descFrom (s - 1) k).zip (v :: L')) (s - (i + 1))
          = some (L'.get ⟨i, hiL⟩)
        rw [List.zip_cons_cons]
        unfold lookupA
        simp only [List.find?, hne]
        have hrw : s - (i + 1) = (s - 1) - i := by omega
        rw [hrw]
        have hrec := ih (s - 1) L'
          (by simp only [List.length_cons] at hlen; omega) (by omega) i hik hiL
        simpa [lookupA] using hrec

theorem zip_map_swap {α β : Type} (A : List α) : ∀ (B : List β),
    (A.zip B).map (fun p => (p.2, p.1)) = B.zip A := by
  induction A with
  | nil => intro B; simp
  | cons a A' ih =>
    intro B
    rcases B with _ | ⟨b, B'⟩
    · simp
    · simp [List.zip_cons_cons, ih]

theorem inputBitOldIds_length (inputs : List (Nat × CircuitInput)) :
    (inputBitOldIds inputs).length = sumInputWidths inputs := by
  induction inputs with
  | nil => rfl
  | cons p rest ih =>
    simp only [inputBitOldIds, sumInputWidths, List.map_cons, List.join,
      List.flatten_cons, List.length_append, List.length_map, List.length_range,
      List.sum_cons] at ih ⊢
    omega

theorem outputIdsD_length (outputs : List CircuitOutput) :
    (outputIdsD outputs).length = sumOutputWidths outputs := by
  induction outputs with
  | nil => rfl
  | cons out rest ih =>
    simp only [outputIdsD, sumOutputWidths, List.map_cons, List.join,
      List.flatten_cons, List.length_append, List.length_map, List.sum_cons] at ih ⊢
    omega

theorem map_id_eq_map_some (bits : List BoolData)
    (h : ∀ b ∈ bits, (BoolWire.id b).isSome) :
    bits.map BoolWire.id = (bits.map (fun b => (BoolWire.id b).getD 0)).map some := by
  induction bits with
  | nil => rfl
  | cons b bs ih =>
    have hb := h b (by simp)
    rcases hid : BoolWire.id b with _ | i
    · rw [hid] at hb; simp at hb
    · simp only [List.map_cons, hid]
      rw [ih (fun x hx => h x (List.mem_cons_of_mem _ hx))]
      rfl

theorem outputBitOldIds_eq (outputs : List CircuitOutput)
    (h : ∀ out ∈ outputs, ∀ b ∈ out.value.bits, (BoolWire.id b).isSome) :
    outputBitOldIds outputs = (outputIdsD outputs).map some := by
  induction outputs with
  | nil => rfl
  | cons out rest ih =>
    have hbits := map_id_eq_map_some out.value.bits (h out (by simp))
    simp only [outputBitOldIds, outputIdsD, List.map_cons, List.join,
      List.flatten_cons] at ih ⊢
    rw [List.map_append, hbits,
      ih (fun o ho b hb => h o (List.mem_cons_of_mem _ ho) b hb)]

theorem outputIdsD_cons (out : CircuitOutput) (rest : List CircuitOutput) :
    outputIdsD (out :: rest)
      = out.value.bits.map (fun b => (BoolWire.id b).getD 0) ++ outputIdsD rest := by
  simp [outputIdsD]

theorem sumOutputWidths_cons (out : CircuitOutput) (rest : List CircuitOutput) :
    sumOutputWidths (out :: rest) = out.value.bits.length + sumOutputWidths rest := by
  simp [sumOutputWidths]

/-! ### Mapper invariants through gate emission (claim C6) -/

/-- Invariant of the id mapper: ordinary ids are dense (`map` holds one entry
per id below `next_id`) and no key of the temporary output map has also been
given an ordinary id. -/
def MapperInv (m : WireIdMapper) : Prop :=
  m.map.length = m.next_id ∧ ∀ p ∈ m.temp_output_map, lookupA m.map p.1 = none

/-- One mapper state extends another: the ordinary map only grows at the end
and the temporary output map is untouched. -/
def MapperExt (m m' : WireIdMapper) : Prop :=
  (∃ l, m'.map = m.map ++ l) ∧ m'.temp_output_map = m.temp_output_map

theorem MapperExt.rfl' (m : WireIdMapper) : MapperExt m m :=
  ⟨⟨[], by simp⟩, rfl⟩

theorem MapperExt_trans {m1 m2 m3 : WireIdMapper}
    (h1 : MapperExt m1 m2) (h2 : MapperExt m2 m3) : MapperExt m1 m3 := by
  obtain ⟨⟨l1, hl1⟩, ht1⟩ := h1
  obtain ⟨⟨l2, hl2⟩, ht2⟩ := h2
  exact ⟨⟨l1 ++ l2, by rw [hl2, hl1, List.append_assoc]⟩, ht2.trans ht1⟩

theorem get_inv (m : WireIdMapper) (k : Nat) (h : MapperInv m) :
    MapperInv (m.get k).snd ∧ MapperExt m (m.get k).snd := by
  rcases he : m.get_existing k with _ | v
  · have hsnd : (m.get k).snd
        = ⟨m.map ++ [(k, m.next_id)], m.next_id + 1,
            m.temp_output_map, m.next_output_id⟩ := by
      unfold WireIdMapper.get
      rw [he]
    rw [hsnd]
    rw [get_existing_none_iff] at he
    refine ⟨⟨?_, ?_⟩, ⟨[(k, m.next_id)], rfl⟩, rfl⟩
    · show (m.map ++ [(k, m.next_id)]).length = m.next_id + 1
      rw [List.length_append, h.1]
      rfl
    · intro p hp
      show lookupA (m.map ++ [(k, m.next_id)]) p.1 = none
      rw [lookupA_append, h.2 p hp]
      have hne : (k == p.1) = false := by
        simp only [beq_eq_false_iff_ne]
        intro hkp
        exact ((lookupA_eq_none _ _).mp he.2 p hp) hkp.symm
      simp [lookupA, List.find?, hne]
  · have hsnd : (m.get k).snd = m := by
      unfold WireIdMapper.get
      rw [he]
    rw [hsnd]
    exact ⟨h, MapperExt.rfl' m⟩

theorem tryInsert_mapper (st : GenSt) (o : Option Nat) :
    (tryInsert st o).snd.mapper = st.mapper := by
  unfold tryInsert
  rcases o with _ | i
  · rfl
  · dsimp only
    split <;> rfl


theorem bindNoneConst {α β : Type} (x : Option α) :
    x.bind (fun _ => (none : Option β)) = none := by
  cases x <;> rfl

theorem genGatesVisit_inv : ∀ (w : BoolData) (st st' : GenSt),
    genGatesVisit w st = some st' → MapperInv st.mapper →
    MapperInv st'.mapper ∧ MapperExt st.mapper st'.mapper := by
  intro w
  induction w with
  | const b =>
    intro st st' h _
    simp [genGatesVisit] at h
  | input i ci =>
    intro st st' h hinv
    simp only [genGatesVisit] at h
    cases h
    exact ⟨hinv, MapperExt.rfl' _⟩
  | inv i a ih =>
    intro st st' h _
    simp [genGatesVisit] at h
  | and i a b iha ihb =>
    intro st st' h hinv
    simp only [genGatesVisit] at h
    rcases htB : tryInsert st (BoolWire.id b) with ⟨freshB, st1⟩
    rw [htB] at h
    rcases htA : tryInsert st1 (BoolWire.id a) with ⟨freshA, st2⟩
    rw [htA] at h
    dsimp only at h
    have hm1 : st1.mapper = st.mapper := by
      rw [← tryInsert_mapper st (BoolWire.id b), htB]
    have hm2 : st2.mapper = st1.mapper := by
      rw [← tryInsert_mapper st1 (BoolWire.id a), htA]
    have hinv2 : MapperInv st2.mapper := by rw [hm2, hm1]; exact hinv
    rcases hia : BoolWire.id a with _ | ai
    · rw [hia] at h
      rcases freshA with _ | _ <;> rcases freshB with _ | _ <;>
        simp [bindNoneConst] at h
    · rcases hib : BoolWire.id b with _ | bi
      · rw [hia, hib] at h
        rcases freshA with _ | _ <;> rcases freshB with _ | _ <;>
          simp [bindNoneConst] at h
      · rw [hia, hib] at h
        dsimp only at h
        have leaf : ∀ y : GenSt, MapperInv y.mapper → MapperExt st2.mapper y.mapper →
            st'.mapper = (((y.mapper.get ai).snd.get bi).snd.get i).snd →
            MapperInv st'.mapper ∧ MapperExt st.mapper st'.mapper := by
          intro y hy hye heq
          have g1 := get_inv y.mapper ai hy
          have g2 := get_inv (y.mapper.get ai).snd bi g1.1
          have g3 := get_inv ((y.mapper.get ai).snd.get bi).snd i g2.1
          rw [heq]
          refine ⟨g3.1, ?_⟩
          have hext := MapperExt_trans hye
            (MapperExt_trans g1.2 (MapperExt_trans g2.2 g3.2))
          rw [hm2, hm1] at hext
          exact hext
        rcases freshA with _ | _ <;> rcases freshB with _ | _
        · simp only [Bool.false_eq_true, if_false, Option.bind_eq_bind,
            Option.some_bind] at h
          rw [Option.some_inj] at h
          exact leaf st2 hinv2 (MapperExt.rfl' _) (by rw [← h])
        · simp only [Bool.false_eq_true, if_false, if_true, Option.bind_eq_bind,
            Option.some_bind] at h
          rw [Option.bind_eq_some] at h
          obtain ⟨stB, hB, h⟩ := h
          rw [Option.some_inj] at h
          have hstB := ihb st2 stB hB hinv2
          exact leaf stB hstB.1 hstB.2 (by rw [← h])
        · simp only [Bool.false_eq_true, if_false, if_true, Option.bind_eq_bind,
            Option.some_bind] at h
          rw [Option.bind_eq_some] at h
          obtain ⟨stA, hA, h⟩ := h
          rw [Option.some_inj] at h
          have hstA := iha st2 stA hA hinv2
          exact leaf stA hstA.1 hstA.2 (by rw [← h])
        · simp only [eq_self_iff_true, if_true, Option.bind_eq_bind] at h
          rw [Option.bind_eq_some] at h
          obtain ⟨stA, hA, h⟩ := h
          rw [Option.bind_eq_some] at h
          obtain ⟨stB, hB, h⟩ := h
          rw [Option.some_inj] at h
          have hstA := iha st2 stA hA hinv2
          have hstB := ihb stA stB hB hstA.1
          exact leaf stB hstB.1 (MapperExt_trans hstA.2 hstB.2) (by rw [← h])
  | xor i a b iha ihb =>
    intro st st' h hinv
    simp only [genGatesVisit] at h
    rcases htB : tryInsert st (BoolWire.id b) with ⟨freshB, st1⟩
    rw [htB] at h
    rcases htA : tryInsert st1 (BoolWire.id a) with ⟨freshA, st2⟩
    rw [htA] at h
    dsimp only at h
    have hm1 : st1.mapper = st.mapper := by
      rw [← tryInsert_mapper st (BoolWire.id b), htB]
    have hm2 : st2.mapper = st1.mapper := by
      rw [← tryInsert_mapper st1 (BoolWire.id a), htA]
    have hinv2 : MapperInv st2.mapper := by rw [hm2, hm1]; exact hinv
    rcases hia : BoolWire.id a with _ | ai
    · rw [hia] at h
      rcases freshA with _ | _ <;> rcases freshB with _ | _ <;>
        simp [bindNoneConst] at h
    · rcases hib : BoolWire.id b with _ | bi
      · rw [hia, hib] at h
        rcases freshA with _ | _ <;> rcases freshB with _ | _ <;>
          simp [bindNoneConst] at h
      · rw [hia, hib] at h
        dsimp only at h
        have leaf : ∀ y : GenSt, MapperInv y.mapper → MapperExt st2.mapper y.mapper →
            st'.mapper = (((y.mapper.get ai).snd.get bi).snd.get i).snd →
            MapperInv st'.mapper ∧ MapperExt st.mapper st'.mapper := by
          intro y hy hye heq
          have g1 := get_inv y.mapper ai hy
          have g2 := get_inv (y.mapper.get ai).snd bi g1.1
          have g3 := get_inv ((y.mapper.get ai).snd.get bi).snd i g2.1
          rw [heq]
          refine ⟨g3.1, ?_⟩
          have hext := MapperExt_trans hye
            (MapperExt_trans g1.2 (MapperExt_trans g2.2 g3.2))
          rw [hm2, hm1] at hext
          exact hext
        rcases freshA with _ | _ <;> rcases freshB with _ | _
        · simp only [Bool.false_eq_true, if_false, Option.bind_eq_bind,
            Option.some_bind] at h
          rw [Option.some_inj] at h
          exact leaf st2 hinv2 (MapperExt.rfl' _) (by rw [← h])
        · simp only [Bool.false_eq_true, if_false, if_true, Option.bind_eq_bind,
            Option.some_bind] at h
          rw [Option.bind_eq_some] at h
          obtain ⟨stB, hB, h⟩ := h
          rw [Option.some_inj] at h
          have hstB := ihb st2 stB hB hinv2
          exact leaf stB hstB.1 hstB.2 (by rw [← h])
        · simp only [Bool.false_eq_true, if_false, if_true, Option.bind_eq_bind,
            Option.some_bind] at h
          rw [Option.bind_eq_some] at h
          obtain ⟨stA, hA, h⟩ := h
          rw [Option.some_inj] at h
          have hstA := iha st2 stA hA hinv2
          exact leaf stA hstA.1 hstA.2 (by rw [← h])
        · simp only [eq_self_iff_true, if_true, Option.bind_eq_bind] at h
          rw [Option.bind_eq_some] at h
          obtain ⟨stA, hA, h⟩ := h
          rw [Option.bind_eq_some] at h
          obtain ⟨stB, hB, h⟩ := h
          rw [Option.some_inj] at h
          have hstA := iha st2 stA hA hinv2
          have hstB := ihb stA stB hB hstA.1
          exact leaf stB hstB.1 (MapperExt_trans hstA.2 hstB.2) (by rw [← h])

theorem genGatesStart_inv (w : BoolData) (st st' : GenSt)
    (h : genGatesStart w st = some st') (hinv : MapperInv st.mapper) :
    MapperInv st'.mapper ∧ MapperExt st.mapper st'.mapper := by
  unfold genGatesStart at h
  rcases hid : BoolWire.id w with _ | i
  · rw [hid] at h
    cases h
    exact ⟨hinv, MapperExt.rfl' _⟩
  · rw [hid] at h
    dsimp only at h
    by_cases hm : i ∈ st.generated_ids
    · rw [if_pos hm] at h
      cases h
      exact ⟨hinv, MapperExt.rfl' _⟩
    · rw [if_neg hm] at h
      exact genGatesVisit_inv w ⟨st.gates, st.mapper, i :: st.generated_ids⟩ st' h hinv

theorem bitsFold_inv (bits : List BoolData) : ∀ (st st' : GenSt),
    List.foldlM (fun st bit => genGatesStart bit st) st bits = some st' →
    MapperInv st.mapper →
    MapperInv st'.mapper ∧ MapperExt st.mapper st'.mapper := by
  induction bits with
  | nil =>
    intro st st' h hinv
    rw [List.foldlM_nil] at h
    cases h
    exact ⟨hinv, MapperExt.rfl' _⟩
  | cons bit bits ih =>
    intro st st' h hinv
    rw [List.foldlM_cons] at h
    rw [Option.bind_eq_bind, Option.bind_eq_some] at h
    obtain ⟨st1, h1, h⟩ := h
    have hs := genGatesStart_inv bit st st1 h1 hinv
    have hr := ih st1 st' h hs.1
    exact ⟨hr.1, MapperExt_trans hs.2 hr.2⟩

theorem outputsFold_inv (outs : List CircuitOutput) : ∀ (st st' : GenSt),
    List.foldlM
      (fun st out => out.value.bits.foldlM (fun st bit => genGatesStart bit st) st)
      st outs = some st' →
    MapperInv st.mapper →
    MapperInv st'.mapper ∧ MapperExt st.mapper st'.mapper := by
  induction outs with
  | nil =>
    intro st st' h hinv
    rw [List.foldlM_nil] at h
    cases h
    exact ⟨hinv, MapperExt.rfl' _⟩
  | cons out rest ih =>
    intro st st' h hinv
    rw [List.foldlM_cons] at h
    rw [Option.bind_eq_bind, Option.bind_eq_some] at h
    obtain ⟨st1, h1, h⟩ := h
    have hs := bitsFold_inv out.value.bits st st1 h1 hinv
    have hr := ih st1 st' h hs.1
    exact ⟨hr.1, MapperExt_trans hs.2 hr.2⟩

/-! ### Phase 2 specification (claim C6) -/

/-- The constant substitution applied by Phase 2 of generate_bristol to each
output bit: `Const(false)` becomes the `special_false` wire, `Const(true)` the
`special_true` wire, anything else is unchanged (mirrors the `match` at the
head of `phase2Bit`). -/
def phase2Subst (sf st : BoolData) (bit : BoolData) : BoolData :=
  match bit with
  | .const false => sf
  | .const true => st
  | other => other

/-- The id carried by an output bit after the Phase 2 substitution, given the
ids of the two special wires. -/
def phase2BitId (sfId stId : Nat) (bit : BoolData) : Nat :=
  match bit with
  | .const false => sfId
  | .const true => stId
  | other => (BoolWire.id other).getD 0

/-- All output bit ids after the Phase 2 substitution, in declared order. -/
def phase2Ids (sfId stId : Nat) (outputs : List CircuitOutput) : List Nat :=
  (outputs.map (fun out => out.value.bits.map (phase2BitId sfId stId))).join

/-- The outputs after the Phase 2 substitution. -/
def phase2Outs (sf st : BoolData) (outputs : List CircuitOutput) :
    List CircuitOutput :=
  outputs.map (fun out => ⟨out.name, ⟨out.value.bits.map (phase2Subst sf st)⟩⟩)

theorem phase2Subst_id (sf st : BoolData) (sfId stId : Nat)
    (hsf : BoolWire.id sf = some sfId) (hst : BoolWire.id st = some stId) :
    ∀ b, BoolWire.id (phase2Subst sf st b) = some (phase2BitId sfId stId b) := by
  intro b
  rcases b with bb | ⟨i, ci⟩ | ⟨i, a, b⟩ | ⟨i, a⟩ | ⟨i, a, b⟩
  · rcases bb with _ | _
    · exact hsf
    · exact hst
  all_goals rfl

theorem map_subst_id (sf st : BoolData) (sfId stId : Nat)
    (hsf : BoolWire.id sf = some sfId) (hst : BoolWire.id st = some stId)
    (bits : List BoolData) :
    (bits.map (phase2Subst sf st)).map BoolWire.id
      = (bits.map (phase2BitId sfId stId)).map some := by
  induction bits with
  | nil => rfl
  | cons b bs ih =>
    simp only [List.map_cons]
    rw [phase2Subst_id sf st sfId stId hsf hst b, ih]

theorem phase2Ids_length (sfId stId : Nat) (outputs : List CircuitOutput) :
    (phase2Ids sfId stId outputs).length = sumOutputWidths outputs := by
  induction outputs with
  | nil => rfl
  | cons out rest ih =>
    simp only [phase2Ids, sumOutputWidths, List.map_cons, List.join,
      List.flatten_cons, List.length_append, List.length_map, List.sum_cons] at ih ⊢
    omega

theorem phase2Ids_cons (sfId stId : Nat) (out : CircuitOutput)
    (rest : List CircuitOutput) :
    phase2Ids sfId stId (out :: rest)
      = out.value.bits.map (phase2BitId sfId stId) ++ phase2Ids sfId stId rest := by
  simp [phase2Ids]

theorem outputBitOldIds_phase2 (sf st : BoolData) (sfId stId : Nat)
    (hsf : BoolWire.id sf = some sfId) (hst : BoolWire.id st = some stId)
    (outputs : List CircuitOutput) :
    outputBitOldIds (phase2Outs sf st outputs)
      = (phase2Ids sfId stId outputs).map some := by
  induction outputs with
  | nil => rfl
  | cons out rest ih =>
    simp only [outputBitOldIds, phase2Outs, phase2Ids, List.map_cons, List.join,
      List.flatten_cons] at ih ⊢
    rw [List.map_append, ← ih, map_subst_id sf st sfId stId hsf hst]

theorem sumOutputWidths_phase2 (sf st : BoolData) (outputs : List CircuitOutput) :
    sumOutputWidths (phase2Outs sf st outputs) = sumOutputWidths outputs := by
  simp only [sumOutputWidths, phase2Outs, List.map_map]
  congr 1
  apply List.map_congr_left
  intro out _
  simp [Function.comp]

theorem phase2Bit_spec (sf st : BoolData) (m : WireIdMapper) (g : IdGenerator)
    (bit : BoolData) (id0 : Nat)
    (hid : BoolWire.id (phase2Subst sf st bit) = some id0)
    (hmap : lookupA m.map id0 = none) (htemp : lookupA m.temp_output_map id0 = none) :
    phase2Bit sf st m g bit
      = some (phase2Subst sf st bit, ⟨m.map, m.next_id,
          m.temp_output_map ++ [(id0, m.next_output_id)], m.next_output_id - 1⟩, g) := by
  have hge : m.get_existing id0 = none := by
    rw [get_existing_none_iff]
    exact ⟨hmap, htemp⟩
  have hgt : m.get_temp_output id0
      = (m.next_output_id, ⟨m.map, m.next_id,
          m.temp_output_map ++ [(id0, m.next_output_id)], m.next_output_id - 1⟩) := by
    unfold WireIdMapper.get_temp_output
    rw [hge]
  rcases bit with bb | ⟨i, ci⟩ | ⟨i, a, b⟩ | ⟨i, a⟩ | ⟨i, a, b⟩
  · rcases bb with _ | _ <;> (
      simp only [phase2Subst] at hid ⊢;
      unfold phase2Bit;
      dsimp only;
      rw [hid];
      dsimp only;
      rw [hge];
      simp only [Option.isSome_none, Bool.false_eq_true, if_false];
      rw [hgt])
  all_goals (
    simp only [phase2Subst] at hid ⊢;
    simp only [BoolWire.id, Option.some_inj] at hid;
    subst hid;
    unfold phase2Bit;
    simp only [BoolWire.id];
    rw [hge];
    simp only [Option.isSome_none, Bool.false_eq_true, if_false];
    rw [hgt])

theorem phase2Bits_spec (sf st : BoolData) (sfId stId : Nat)
    (hsf : BoolWire.id sf = some sfId) (hst : BoolWire.id st = some stId)
    (bits : List BoolData) :
    ∀ (m : WireIdMapper) (g : IdGenerator),
    (∀ b ∈ bits, lookupA m.map (phase2BitId sfId stId b) = none
        ∧ lookupA m.temp_output_map (phase2BitId sfId stId b) = none) →
    (bits.map (phase2BitId sfId stId)).Nodup →
    phase2Bits sf st bits m g
      = some (bits.map (phase2Subst sf st), ⟨m.map, m.next_id,
          m.temp_output_map
            ++ (bits.map (phase2BitId sfId stId)).zip
                (descFrom m.next_output_id bits.length),
          m.next_output_id - bits.length⟩, g) := by
  induction bits with
  | nil =>
    intro m g _ _
    simp [phase2Bits, descFrom]
  | cons b bs ih =>
    intro m g hnone hnd
    have hidb := phase2Subst_id sf st sfId stId hsf hst b
    have hb := hnone b (by simp)
    have hstep := phase2Bit_spec sf st m g b (phase2BitId sfId stId b) hidb hb.1 hb.2
    have hnone' : ∀ x ∈ bs, lookupA m.map (phase2BitId sfId stId x) = none
        ∧ lookupA (m.temp_output_map ++ [(phase2BitId sfId stId b, m.next_output_id)])
            (phase2BitId sfId stId x) = none := by
      intro x hx
      have h0 := hnone x (by simp [hx])
      refine ⟨h0.1, ?_⟩
      rw [lookupA_append, h0.2]
      have hne : (phase2BitId sfId stId b == phase2BitId sfId stId x) = false := by
        simp only [beq_eq_false_iff_ne]
        intro hbx
        rw [List.map_cons] at hnd
        have hnd2 := List.nodup_cons.mp hnd
        exact hnd2.1 (hbx ▸ List.mem_map_of_mem _ hx)
      simp [lookupA, List.find?, hne]
    have hrec := ih ⟨m.map, m.next_id,
        m.temp_output_map ++ [(phase2BitId sfId stId b, m.next_output_id)],
        m.next_output_id - 1⟩ g hnone'
      (by
        rw [List.map_cons] at hnd
        exact (List.nodup_cons.mp hnd).2)
    simp only [phase2Bits]
    rw [hstep]
    simp only [Option.bind_eq_bind, Option.some_bind]
    rw [hrec]
    simp only [Option.bind_eq_bind, Option.some_bind, Option.pure_def]
    rw [Option.some_inj, Prod.mk.injEq, Prod.mk.injEq]
    refine ⟨rfl, ?_, rfl⟩
    show (⟨m.map, m.next_id,
        (m.temp_output_map ++ [(phase2BitId sfId stId b, m.next_output_id)])
          ++ (bs.map (phase2BitId sfId stId)).zip
              (descFrom (m.next_output_id - 1) bs.length),
        m.next_output_id - 1 - bs.length⟩ : WireIdMapper)
      = ⟨m.map, m.next_id,
        m.temp_output_map
          ++ ((b :: bs).map (phase2BitId sfId stId)).zip
              (descFrom m.next_output_id (b :: bs).length),
        m.next_output_id - (b :: bs).length⟩
    rw [List.append_assoc]
    have h1 : m.next_output_id - 1 - bs.length
        = m.next_output_id - (b :: bs).length := by
      simp only [List.length_cons]
      omega
    rw [h1]
    have h2 : [(phase2BitId sfId stId b, m.next_output_id)]
          ++ (bs.map (phase2BitId sfId stId)).zip
              (descFrom (m.next_output_id - 1) bs.length)
        = ((b :: bs).map (phase2BitId sfId stId)).zip
              (descFrom m.next_output_id (b :: bs).length) := by
      simp only [List.map_cons, List.length_cons]
      show (phase2BitId sfId stId b, m.next_output_id)
          :: (bs.map (phase2BitId sfId stId)).zip
              (descFrom (m.next_output_id - 1) bs.length)
        = (phase2BitId sfId stId b :: bs.map (phase2BitId sfId stId)).zip
              (m.next_output_id :: descFrom (m.next_output_id - 1) bs.length)
      rw [List.zip_cons_cons]
    rw [h2]

theorem phase2_spec (sf st : BoolData) (sfId stId : Nat)
    (hsf : BoolWire.id sf = some sfId) (hst : BoolWire.id st = some stId)
    (outputs : List CircuitOutput) :
    ∀ (m : WireIdMapper) (g : IdGenerator),
    (∀ i ∈ phase2Ids sfId stId outputs,
        lookupA m.map i = none ∧ lookupA m.temp_output_map i = none) →
    (phase2Ids sfId stId outputs).Nodup →
    phase2 sf st outputs m g
      = some (phase2Outs sf st outputs, ⟨m.map, m.next_id,
          m.temp_output_map
            ++ (phase2Ids sfId stId outputs).zip
                (descFrom m.next_output_id (sumOutputWidths outputs)),
          m.next_output_id - sumOutputWidths outputs⟩, g) := by
  induction outputs with
  | nil =>
    intro m g _ _
    simp [phase2, phase2Outs, phase2Ids, sumOutputWidths, descFrom]
  | cons out rest ih =>
    intro m g hnone hnd
    rw [phase2Ids_cons] at hnone hnd
    have hnoneB : ∀ b ∈ out.value.bits,
        lookupA m.map (phase2BitId sfId stId b) = none
        ∧ lookupA m.temp_output_map (phase2BitId sfId stId b) = none := by
      intro b hb
      exact hnone _ (List.mem_append_left _ (List.mem_map_of_mem _ hb))
    have hndB := List.Nodup.of_append_left hnd
    have hstep := phase2Bits_spec sf st sfId stId hsf hst out.value.bits m g
      hnoneB hndB
    have hlen1 : (out.value.bits.map (phase2BitId sfId stId)).length
        = out.value.bits.length := List.length_map _ _
    have hdisj := (List.nodup_append.mp hnd).2.2
    have hnoneR : ∀ i ∈ phase2Ids sfId stId rest,
        lookupA m.map i = none
        ∧ lookupA (m.temp_output_map
            ++ (out.value.bits.map (phase2BitId sfId stId)).zip
                (descFrom m.next_output_id out.value.bits.length)) i = none := by
      intro i hi
      have h0 := hnone i (List.mem_append_right _ hi)
      refine ⟨h0.1, ?_⟩
      rw [lookupA_append, h0.2]
      have hnotmem : i ∉ out.value.bits.map (phase2BitId sfId stId) := by
        intro hmem
        exact hdisj hmem hi
      rw [lookupA_zip_not_mem _ _ _ hnotmem]
    have hrec := ih ⟨m.map, m.next_id,
        m.temp_output_map
          ++ (out.value.bits.map (phase2BitId sfId stId)).zip
              (descFrom m.next_output_id out.value.bits.length),
        m.next_output_id - out.value.bits.length⟩ g
      hnoneR (List.nodup_append.mp hnd).2.1
    simp only [phase2]
    rw [hstep]
    simp only [Option.bind_eq_bind, Option.some_bind]
    rw [hrec]
    simp only [Option.bind_eq_bind, Option.some_bind, Option.pure_def]
    rw [Option.some_inj, Prod.mk.injEq, Prod.mk.injEq]
    refine ⟨rfl, ?_, rfl⟩
    show (⟨m.map, m.next_id,
        (m.temp_output_map
          ++ (out.value.bits.map (phase2BitId sfId stId)).zip
              (descFrom m.next_output_id out.value.bits.length))
          ++ (phase2Ids sfId stId rest).zip
              (descFrom (m.next_output_id - out.value.bits.length)
                (sumOutputWidths rest)),
        m.next_output_id - out.value.bits.length - sumOutputWidths rest⟩
          : WireIdMapper)
      = ⟨m.map, m.next_id,
        m.temp_output_map
          ++ (phase2Ids sfId stId (out :: rest)).zip
              (descFrom m.next_output_id (sumOutputWidths (out :: rest))),
        m.next_output_id - sumOutputWidths (out :: rest)⟩
    rw [List.append_assoc]
    have h1 : m.next_output_id - out.value.bits.length - sumOutputWidths rest
        = m.next_output_id - sumOutputWidths (out :: rest) := by
      rw [sumOutputWidths_cons]
      omega
    rw [h1]
    have h2 : (out.value.bits.map (phase2BitId sfId stId)).zip
          (descFrom m.next_output_id out.value.bits.length)
        ++ (phase2Ids sfId stId rest).zip
            (descFrom (m.next_output_id - out.value.bits.length)
              (sumOutputWidths rest))
      = (phase2Ids sfId stId (out :: rest)).zip
          (descFrom m.next_output_id (sumOutputWidths (out :: rest))) := by
      rw [phase2Ids_cons, sumOutputWidths_cons,
        descFrom_append out.value.bits.length m.next_output_id (sumOutputWidths rest),
        List.zip_append]
      rw [hlen1, descFrom_length]
    rw [h2]

/-! ### Finalization of output ids (claim C6) -/

theorem finalizeLoop_spec (obits : List Nat) (hnd : obits.Nodup)
    (K : Nat) (hK : K = obits.length) (hKM : K ≤ USIZE_MAX + 1) :
    ∀ (r i : Nat), r + i = K →
    ∀ (m : WireIdMapper) (update : List (Nat × Nat)),
    (∀ j, i ≤ j → ∀ (hj : j < obits.length), lookupA m.map (obits.get ⟨j, hj⟩) = none) →
    ∃ m' update',
      WireIdMapper.finalizeLoop ((descFrom USIZE_MAX K).zip obits) r i m update
        = some (m', update')
      ∧ m'.map = m.map ++ (obits.drop i).zip (List.range' m.next_id r)
      ∧ m'.next_id = m.next_id + r := by
  intro r
  induction r with
  | zero =>
    intro i hri m update hnone
    refine ⟨m, update, rfl, ?_, by omega⟩
    have hdrop : obits.drop i = [] := List.drop_eq_nil_of_le (by omega)
    rw [hdrop]
    simp
  | succ r ih =>
    intro i hri m update hnone
    have hiK : i < K := by omega
    have hilen : i < obits.length := by omega
    have hrev : lookupA ((descFrom USIZE_MAX K).zip obits) (USIZE_MAX - i)
        = some (obits.get ⟨i, hilen⟩) :=
      lookupA_descFrom_zip K USIZE_MAX obits hK hKM i hiK hilen
    have hmapi := hnone i (le_refl i) hilen
    have hget : ({ m with temp_output_map :=
          m.temp_output_map.filter (fun p => p.1 != obits.get ⟨i, hilen⟩) }
            : WireIdMapper).get (obits.get ⟨i, hilen⟩)
        = (m.next_id, ⟨m.map ++ [(obits.get ⟨i, hilen⟩, m.next_id)], m.next_id + 1,
            m.temp_output_map.filter (fun p => p.1 != obits.get ⟨i, hilen⟩),
            m.next_output_id⟩) := by
      unfold WireIdMapper.get
      have hge : ({ m with temp_output_map :=
            m.temp_output_map.filter (fun p => p.1 != obits.get ⟨i, hilen⟩) }
              : WireIdMapper).get_existing (obits.get ⟨i, hilen⟩) = none := by
        rw [get_existing_none_iff]
        exact ⟨hmapi, lookupA_filter_ne _ _⟩
      rw [hge]
    have hnone' : ∀ j, i + 1 ≤ j → ∀ (hj : j < obits.length),
        lookupA (m.map ++ [(obits.get ⟨i, hilen⟩, m.next_id)]) (obits.get ⟨j, hj⟩)
          = none := by
      intro j hij hj
      rw [lookupA_append, hnone j (by omega) hj]
      have hne : (obits.get ⟨i, hilen⟩ == obits.get ⟨j, hj⟩) = false := by
        simp only [beq_eq_false_iff_ne]
        intro he
        have := (List.Nodup.get_inj_iff hnd).mp he
        have hfin : i = j := congrArg Fin.val this
        omega
      simp only [List.get_eq_getElem] at hne
      simp [lookupA, List.find?, hne]
    have hrec := ih (i + 1) (by omega)
      ⟨m.map ++ [(obits.get ⟨i, hilen⟩, m.next_id)], m.next_id + 1,
        m.temp_output_map.filter (fun p => p.1 != obits.get ⟨i, hilen⟩),
        m.next_output_id⟩
      (update ++ [(USIZE_MAX - i, m.next_id)]) hnone'
    obtain ⟨m', update', hloop, hmap, hnid⟩ := hrec
    refine ⟨m', update', ?_, ?_, by rw [hnid]; show m.next_id + 1 + r = m.next_id + (r + 1); omega⟩
    · show WireIdMapper.finalizeLoop ((descFrom USIZE_MAX K).zip obits) (r + 1) i m update
        = some (m', update')
      simp only [WireIdMapper.finalizeLoop]
      rw [hrev]
      dsimp only
      rw [hmapi]
      simp only [Option.isSome_none, Bool.false_eq_true, if_false]
      rw [hget]
      exact hloop
    · rw [hmap]
      show m.map ++ [(obits.get ⟨i, hilen⟩, m.next_id)]
          ++ (obits.drop (i + 1)).zip (List.range' (m.next_id + 1) r)
        = m.map ++ (obits.drop i).zip (List.range' m.next_id (r + 1))
      rw [List.append_assoc]
      have hdrop : obits.drop i = obits.get ⟨i, hilen⟩ :: obits.drop (i + 1) := by
        rw [List.drop_eq_getElem_cons hilen]
        rfl
      rw [hdrop, List.range'_succ, List.zip_cons_cons]
      rfl

/-- Final ids of keys bound by a prefix of the map: looking each key of `K`
up in `K.zip L ++ rest` yields the corresponding entry of `L`. -/
theorem lookup_prefix_map (K L : List Nat) (rest : List (Nat × Nat))
    (hnd : K.Nodup) (hlen : K.length = L.length) :
    K.map (fun i => lookupA (K.zip L ++ rest) i) = L.map some := by
  apply List.ext_getElem
  · simp [hlen]
  · intro j hj1 hj2
    have hjK : j < K.length := by simpa using hj1
    have hjL : j < L.length := by simpa using hj2
    simp only [List.getElem_map]
    rw [lookupA_append, lookupA_zip_nodup K L hnd hlen j hjK hjL]

/-- Final ids of keys bound by a suffix of the map: when no key of `K` is
bound by `pre`, looking each key up in `pre ++ K.zip L` yields the
corresponding entry of `L`. -/
theorem lookup_suffix_map (pre : List (Nat × Nat)) (K L : List Nat)
    (hnd : K.Nodup) (hlen : K.length = L.length)
    (hnone : ∀ i ∈ K, lookupA pre i = none) :
    K.map (fun i => lookupA (pre ++ K.zip L) i) = L.map some := by
  apply List.ext_getElem
  · simp [hlen]
  · intro j hj1 hj2
    have hjK : j < K.length := by simpa using hj1
    have hjL : j < L.length := by simpa using hj2
    simp only [List.getElem_map]
    rw [lookupA_append, hnone (K[j]) (List.getElem_mem hjK),
      lookupA_zip_nodup K L hnd hlen j hjK hjL]


/-- Claim C6 (corrected): the original claim, refuted by
`claim_C6_counterexample` (overlapping input id ranges), holds under amended
hypotheses. For every successful run `generate_bristol_impl outputs g = some r`
in which the registered input bit ids are duplicate-free (the declared inputs'
id ranges are pairwise disjoint) and the output bit ids *after the Phase 2
constant substitution* — a `Const(false)` bit counts as the `special_false`
wire, whose id is `g`, and a `Const(true)` bit as the `special_true` wire,
whose id is `g + 1`; any other bit keeps its own id — are duplicate-free,
disjoint from the input bit ids, and of total width at most `usize::MAX`,
the final wire ids of the input bits occupy `[0, Σ widths_in)` contiguously
in declared (ascending `id_start`) order and the final wire ids of the output
bits occupy the top `Σ widths_out` ids
`[wire_count - Σ widths_out, wire_count)` in declared order. Constant output
bits are allowed: they are laid out through the special wires. -/
theorem claim_C6 (outputs : List CircuitOutput) (g : IdGenerator) (r : GenResult)
    (h1 : generate_bristol_impl outputs g = some r)
    (h2 : (inputBitOldIds r.inputs).Nodup)
    (h3 : (phase2Ids g (g + 1) outputs).Nodup)
    (h4 : ∀ i ∈ phase2Ids g (g + 1) outputs, i ∉ inputBitOldIds r.inputs)
    (h5 : sumOutputWidths outputs ≤ USIZE_MAX) :
    layoutClaim r := by
  unfold generate_bristol_impl at h1
  rw [Option.bind_eq_bind, Option.bind_eq_some] at h1
  obtain ⟨stci, hstci, h1⟩ := h1
  rw [Option.bind_eq_bind, Option.bind_eq_some] at h1
  obtain ⟨first_input, hfi, h1⟩ := h1
  rw [Option.bind_eq_bind, Option.bind_eq_some] at h1
  obtain ⟨out0, hout0, h1⟩ := h1
  dsimp only at h1
  rcases hxor : BoolWire.xor (.input first_input.id_start first_input)
      (.input first_input.id_start first_input) g with ⟨sf, g1⟩
  rw [hxor] at h1
  dsimp only at h1
  rcases hnot : BoolWire.not sf g1 with ⟨stw, g2⟩
  rw [hnot] at h1
  dsimp only at h1
  rw [Option.bind_eq_bind, Option.bind_eq_some] at h1
  obtain ⟨p2res, hp2, h1⟩ := h1
  rcases p2res with ⟨outputs2, m2, g3⟩
  dsimp only at h1
  rw [Option.bind_eq_bind, Option.bind_eq_some] at h1
  obtain ⟨st2, hst2, h1⟩ := h1
  rw [Option.bind_eq_bind, Option.bind_eq_some] at h1
  obtain ⟨finres, hfin, h1⟩ := h1
  rcases finres with ⟨mfin, gates2⟩
  dsimp only at h1
  rw [Option.bind_eq_bind, Option.bind_eq_some] at h1
  obtain ⟨input_pairs, hip, h1⟩ := h1
  rw [Option.bind_eq_bind, Option.bind_eq_some] at h1
  obtain ⟨output_pairs, hop, h1⟩ := h1
  rw [Option.pure_def, Option.some_inj] at h1
  subst h1
  have hxe : BoolWire.xor (.input first_input.id_start first_input)
      (.input first_input.id_start first_input) g
    = (.xor g (.input first_input.id_start first_input)
        (.input first_input.id_start first_input), g + 1) := rfl
  rw [hxor, Prod.mk.injEq] at hxe
  obtain ⟨hsfeq, hg1eq⟩ := hxe
  subst hsfeq
  subst hg1eq
  have hne2 : BoolWire.not (.xor g (.input first_input.id_start first_input)
      (.input first_input.id_start first_input)) (g + 1)
    = (.inv (g + 1) (.xor g (.input first_input.id_start first_input)
        (.input first_input.id_start first_input)), g + 2) := rfl
  rw [hnot, Prod.mk.injEq] at hne2
  obtain ⟨hsteq, hg2eq⟩ := hne2
  subst hsteq
  subst hg2eq
  have h2' : (inputBitOldIds stci.1).Nodup := h2
  have h4' : ∀ i ∈ phase2Ids g (g + 1) outputs, i ∉ inputBitOldIds stci.1 := h4
  rw [regFold_nested stci.1] at hp2
  have hreg := regFold_spec (inputBitOldIds stci.1) WireIdMapper.new h2'
    (fun k hk => by rw [get_existing_none_iff]; exact ⟨rfl, rfl⟩)
  have hmapR : (regFold (inputBitOldIds stci.1) WireIdMapper.new).map
      = (inputBitOldIds stci.1).zip
          (List.range' 0 (inputBitOldIds stci.1).length) := by
    have hx := hreg.1
    simpa [WireIdMapper.new] using hx
  have hnidR : (regFold (inputBitOldIds stci.1) WireIdMapper.new).next_id
      = (inputBitOldIds stci.1).length := by
    have hx := hreg.2.1
    simpa [WireIdMapper.new] using hx
  have htempR : (regFold (inputBitOldIds stci.1) WireIdMapper.new).temp_output_map
      = [] := by
    have hx := hreg.2.2.1
    simpa [WireIdMapper.new] using hx
  have hnoidR : (regFold (inputBitOldIds stci.1) WireIdMapper.new).next_output_id
      = USIZE_MAX := by
    have hx := hreg.2.2.2
    simpa [WireIdMapper.new] using hx
  have hφnone : ∀ i ∈ phase2Ids g (g + 1) outputs,
      lookupA (regFold (inputBitOldIds stci.1) WireIdMapper.new).map i = none
      ∧ lookupA (regFold (inputBitOldIds stci.1) WireIdMapper.new).temp_output_map i
          = none := by
    intro i hi
    constructor
    · rw [hmapR]
      exact lookupA_zip_not_mem _ _ _ (h4' i hi)
    · rw [htempR]
      rfl
  have hφ := phase2_spec
    (.xor g (.input first_input.id_start first_input)
      (.input first_input.id_start first_input))
    (.inv (g + 1) (.xor g (.input first_input.id_start first_input)
      (.input first_input.id_start first_input)))
    g (g + 1) rfl rfl outputs
    (regFold (inputBitOldIds stci.1) WireIdMapper.new) (g + 2) hφnone h3
  rw [hp2] at hφ
  rw [Option.some_inj, Prod.mk.injEq, Prod.mk.injEq] at hφ
  obtain ⟨houts2, hm2eq, hg3eq⟩ := hφ
  rw [hmapR, hnidR, htempR, hnoidR, List.nil_append] at hm2eq
  subst outputs2
  subst hm2eq
  have hinvM2 : MapperInv
      (⟨(inputBitOldIds stci.1).zip (List.range' 0 (inputBitOldIds stci.1).length),
        (inputBitOldIds stci.1).length,
        (phase2Ids g (g + 1) outputs).zip
          (descFrom USIZE_MAX (sumOutputWidths outputs)),
        USIZE_MAX - sumOutputWidths outputs⟩ : WireIdMapper) := by
    constructor
    · show ((inputBitOldIds stci.1).zip
          (List.range' 0 (inputBitOldIds stci.1).length)).length
        = (inputBitOldIds stci.1).length
      rw [List.length_zip, List.length_range', Nat.min_self]
    · intro p hp
      have hmem := (List.of_mem_zip hp).1
      show lookupA ((inputBitOldIds stci.1).zip
          (List.range' 0 (inputBitOldIds stci.1).length)) p.1 = none
      exact lookupA_zip_not_mem _ _ _ (h4' p.1 hmem)
  have hout := outputsFold_inv
    (phase2Outs
      (.xor g (.input first_input.id_start first_input)
        (.input first_input.id_start first_input))
      (.inv (g + 1) (.xor g (.input first_input.id_start first_input)
        (.input first_input.id_start first_input)))
      outputs)
    ⟨[], ⟨(inputBitOldIds stci.1).zip (List.range' 0 (inputBitOldIds stci.1).length),
        (inputBitOldIds stci.1).length,
        (phase2Ids g (g + 1) outputs).zip
          (descFrom USIZE_MAX (sumOutputWidths outputs)),
        USIZE_MAX - sumOutputWidths outputs⟩, []⟩ st2 hst2 hinvM2
  obtain ⟨hinv2, hext2⟩ := hout
  obtain ⟨⟨extra, hmap2⟩, htemp2⟩ := hext2
  have htemp2' : st2.mapper.temp_output_map
      = (phase2Ids g (g + 1) outputs).zip
          (descFrom USIZE_MAX (sumOutputWidths outputs)) :=
    htemp2
  have hlen2 : st2.mapper.map.length = st2.mapper.next_id := hinv2.1
  have hoblen : (phase2Ids g (g + 1) outputs).length = sumOutputWidths outputs :=
    phase2Ids_length g (g + 1) outputs
  have hziplen : ((phase2Ids g (g + 1) outputs).zip
        (descFrom USIZE_MAX (sumOutputWidths outputs))).length
      = sumOutputWidths outputs := by
    rw [List.length_zip, descFrom_length, hoblen, Nat.min_self]
  have hnone0 : ∀ j, 0 ≤ j → ∀ (hj : j < (phase2Ids g (g + 1) outputs).length),
      lookupA st2.mapper.map ((phase2Ids g (g + 1) outputs).get ⟨j, hj⟩) = none := by
    intro j _ hj
    have hjz : j < ((phase2Ids g (g + 1) outputs).zip
        (descFrom USIZE_MAX (sumOutputWidths outputs))).length := by
      rw [hziplen]
      omega
    have hjd : j < (descFrom USIZE_MAX (sumOutputWidths outputs)).length := by
      rw [descFrom_length]
      omega
    have hp : ((phase2Ids g (g + 1) outputs)[j],
          (descFrom USIZE_MAX (sumOutputWidths outputs))[j])
        ∈ st2.mapper.temp_output_map := by
      rw [htemp2', ← @List.getElem_zip _ _ _ _ j hjz]
      exact List.getElem_mem hjz
    exact hinv2.2 _ hp
  unfold WireIdMapper.finalize_outputs at hfin
  dsimp only at hfin
  rw [htemp2', zip_map_swap, hziplen] at hfin
  have hfs := finalizeLoop_spec (phase2Ids g (g + 1) outputs) h3
    (sumOutputWidths outputs) hoblen.symm (by omega) (sumOutputWidths outputs) 0
    (by omega) st2.mapper [] hnone0
  obtain ⟨mfin2, update2, hloop, hmapfin, hnidfin⟩ := hfs
  rw [hloop] at hfin
  dsimp only at hfin
  rw [Option.some_inj, Prod.mk.injEq] at hfin
  obtain ⟨hmfin, hgup⟩ := hfin
  subst hmfin
  rw [List.drop_zero] at hmapfin
  refine ⟨?_, ?_⟩
  · show (inputBitOldIds stci.1).map (fun i => lookupA mfin2.map i)
      = (List.range (sumInputWidths stci.1)).map some
    have hmfinmap : mfin2.map
        = (inputBitOldIds stci.1).zip
            (List.range' 0 (inputBitOldIds stci.1).length)
          ++ (extra ++ (phase2Ids g (g + 1) outputs).zip
              (List.range' st2.mapper.next_id (sumOutputWidths outputs))) := by
      rw [hmapfin, hmap2, List.append_assoc]
    rw [hmfinmap, List.range_eq_range', ← inputBitOldIds_length stci.1]
    exact lookup_prefix_map _ _ _ h2' (by rw [List.length_range'])
  · show (outputBitOldIds (phase2Outs
        (.xor g (.input first_input.id_start first_input)
          (.input first_input.id_start first_input))
        (.inv (g + 1) (.xor g (.input first_input.id_start first_input)
          (.input first_input.id_start first_input)))
        outputs)).map
        (fun o => o.bind (fun i => lookupA mfin2.map i))
      = (List.range' (mfin2.map.length
            - sumOutputWidths (phase2Outs
                (.xor g (.input first_input.id_start first_input)
                  (.input first_input.id_start first_input))
                (.inv (g + 1) (.xor g (.input first_input.id_start first_input)
                  (.input first_input.id_start first_input)))
                outputs))
          (sumOutputWidths (phase2Outs
              (.xor g (.input first_input.id_start first_input)
                (.input first_input.id_start first_input))
              (.inv (g + 1) (.xor g (.input first_input.id_start first_input)
                (.input first_input.id_start first_input)))
              outputs))).map some
    rw [outputBitOldIds_phase2
        (.xor g (.input first_input.id_start first_input)
          (.input first_input.id_start first_input))
        (.inv (g + 1) (.xor g (.input first_input.id_start first_input)
          (.input first_input.id_start first_input)))
        g (g + 1) rfl rfl outputs, sumOutputWidths_phase2, List.map_map]
    have hcomp : ((fun o => o.bind (fun i => lookupA mfin2.map i)) ∘ some)
        = fun i => lookupA mfin2.map i := by
      funext i
      simp [Function.comp]
    rw [hcomp]
    have hwc : mfin2.map.length - sumOutputWidths outputs = st2.mapper.next_id := by
      rw [hmapfin, List.length_append, List.length_zip, List.length_range',
        hoblen, Nat.min_self]
      omega
    rw [hwc, hmapfin]
    apply lookup_suffix_map st2.mapper.map _ _ h3
      (by rw [List.length_range']; exact hoblen)
    intro i hi
    obtain ⟨j, hj, hji⟩ := List.mem_iff_getElem.mp hi
    have hx := hnone0 j (by omega) hj
    rw [← hji]
    exact hx


/-- Witness for claim C6: the circuit with outputs `c = a AND b` and
`d = Const(false)` satisfies every hypothesis — the constant output bit is
reified as the `special_false` wire `XOR(a, a)` with id `g = 3` — and its
serialization lays the two input bits out at wire ids 0 and 1 and the two
output bits at the top ids 2 and 3 of `wire_count = 4`. -/
theorem claim_C6_witness :
    layoutClaim
      ⟨⟨4, ⟨[("a", 0), ("b", 1)], [("c", 2), ("d", 3)]⟩, ([1, 1], [1, 1]),
          [⟨[0, 1], [2], "AND"⟩, ⟨[0, 0], [3], "XOR"⟩]⟩,
        ⟨[(0, 0), (1, 1), (2, 2), (3, 3)], 4, [], USIZE_MAX - 2⟩,
        [(0, ⟨"a", 0, 1⟩), (1, ⟨"b", 1, 1⟩)],
        [⟨"c", ⟨[.and 2 (.input 0 ⟨"a", 0, 1⟩) (.input 1 ⟨"b", 1, 1⟩)]⟩⟩,
          ⟨"d", ⟨[.xor 3 (.input 0 ⟨"a", 0, 1⟩) (.input 0 ⟨"a", 0, 1⟩)]⟩⟩]⟩ :=
  claim_C6
    [⟨"c", ⟨[.and 2 (.input 0 ⟨"a", 0, 1⟩) (.input 1 ⟨"b", 1, 1⟩)]⟩⟩,
      ⟨"d", ⟨[.const false]⟩⟩] 3
    ⟨⟨4, ⟨[("a", 0), ("b", 1)], [("c", 2), ("d", 3)]⟩, ([1, 1], [1, 1]),
        [⟨[0, 1], [2], "AND"⟩, ⟨[0, 0], [3], "XOR"⟩]⟩,
      ⟨[(0, 0), (1, 1), (2, 2), (3, 3)], 4, [], USIZE_MAX - 2⟩,
      [(0, ⟨"a", 0, 1⟩), (1, ⟨"b", 1, 1⟩)],
      [⟨"c", ⟨[.and 2 (.input 0 ⟨"a", 0, 1⟩) (.input 1 ⟨"b", 1, 1⟩)]⟩⟩,
        ⟨"d", ⟨[.xor 3 (.input 0 ⟨"a", 0, 1⟩) (.input 0 ⟨"a", 0, 1⟩)]⟩⟩]⟩
    rfl (by decide) (by decide) (by decide) (by decide)
